import Mathlib

/-!
Verification of the UsefulClicker script-execution engine
(`src/core/xml_engine_old.py`).

The development shallowly embeds the engine's data model and the handlers
the specification talks about:

* `Value`/`Store` — the dynamically-typed Variable Store;
* `substVars` — the `${name|filter}` placeholder substitution
  (`_substitute_vars` / `_apply_filter` / `_VAR_PATTERN`);
* `quotePlus` — `urllib.parse.quote_plus` percent-encoding;
* `execNode` — a fuel-indexed interpreter for the control-flow handlers
  (`handle_set`, `handle_if`, `handle_check`, `handle_repeat`,
  `handle_foreach`, `handle_call`, `handle_func`) and the dispatcher
  `_exec_node`;
* `sleepLoop` / `voiceEventLoop` — discrete-time models of
  `_sleep_ms_interruptible` and the `handle_voice_event` polling loop,
  driven by a per-poll trace of the asynchronously written flags.

Host-language primitives that the engine delegates to (`eval` inside
`_safe_eval`, `random.shuffle`, and the collaborator side effects of the
non-control directives) are modelled as oracle parameters of the
interpreter, quantified over in the theorems and instantiated with
concrete literal evaluators in witnesses.
-/

/-- A dynamically-typed value of the Variable Store.  Mirrors the value
kinds the engine actually stores: strings, integers, reals (modelled
exactly as rationals), booleans and lists of strings. -/
inductive Value where
  | str (s : String)
  | int (n : Int)
  | num (q : ℚ)
  | bool (b : Bool)
  | list (xs : List String)
  deriving DecidableEq, Repr

/-- The Variable Store: an insertion-ordered association list, first
binding of a key is the visible one (keys are kept unique by `setVar`). -/
abbrev Store := List (String × Value)

/-- `variables.get(k)` — first binding wins. -/
def lookupVar (s : Store) (k : String) : Option Value :=
  s.lookup k

/-- `variables[k] = v` — replace in place, append if new (Python `dict`
update order). -/
def setVar : Store → String → Value → Store
  | [], k, v => [(k, v)]
  | (k0, v0) :: rest, k, v =>
    if k0 = k then (k0, v) :: rest else (k0, v0) :: setVar rest k v

/-- The whitespace characters Python `str.strip()` removes (ASCII). -/
def isPyWs (c : Char) : Bool :=
  c = ' ' ∨ c = '\t' ∨ c = '\n' ∨ c = '\r' ∨ c = Char.ofNat 11 ∨ c = Char.ofNat 12

/-- Python `str.strip()` on a character list. -/
def pyStripChars (cs : List Char) : List Char :=
  ((cs.dropWhile isPyWs).reverse.dropWhile isPyWs).reverse

/-- ASCII lowercasing of one character (Python `str.lower()` on the
ASCII range, which is all the engine's tag and filter names use). -/
def asciiLowerChar (c : Char) : Char :=
  if 65 ≤ c.toNat ∧ c.toNat ≤ 90 then Char.ofNat (c.toNat + 32) else c

/-- ASCII lowercasing of a string. -/
def lowerStr (s : String) : String :=
  String.mk (s.data.map asciiLowerChar)

/-- `str.strip().lower()`. -/
def stripLower (s : String) : String :=
  String.mk ((pyStripChars s.data).map asciiLowerChar)

/-- Split a character list at every character satisfying `p`
(separators are dropped; empty pieces are kept, as with `re.split` on a
single-character pattern). -/
def splitOnPred (p : Char → Bool) : List Char → List Char → List (List Char)
  | [], acc => [acc.reverse]
  | c :: cs, acc =>
    if p c then acc.reverse :: splitOnPred p cs [] else splitOnPred p cs (c :: acc)

/-- `a.startswith(b)`. -/
def startsWithChars : List Char → List Char → Bool
  | _, [] => true
  | [], _ :: _ => false
  | c :: cs, p :: ps => c = p && startsWithChars cs ps

/-- Digits of a numeral, most significant first, to a natural number. -/
def digitsToNat (cs : List Char) : Nat :=
  cs.foldl (fun a c => a * 10 + (c.toNat - 48)) 0

/-- Optional leading sign of a Python numeric literal. -/
def splitSign : List Char → (Int × List Char)
  | '-' :: r => (-1, r)
  | '+' :: r => (1, r)
  | cs => (1, cs)

/-- Python `int(str)`: strip whitespace, optional sign, decimal digits
only (a fractional part is a `ValueError`, modelled as `none`). -/
def pyIntOfString (s : String) : Option Int :=
  let cs := pyStripChars s.data
  let p := splitSign cs
  if p.2 ≠ [] ∧ p.2.all Char.isDigit then some (p.1 * digitsToNat p.2) else none

/-- Exponent suffix of a Python float literal (after the `e`/`E`). -/
def pyFloatExp (sgn : Int) (m : ℚ) (r : List Char) : Option ℚ :=
  let p := splitSign r
  let ds := p.2.takeWhile Char.isDigit
  let rest := p.2.dropWhile Char.isDigit
  if ds = [] ∨ rest ≠ [] then none
  else
    let e := digitsToNat ds
    let factor : ℚ := if p.1 ≥ 0 then (10 : ℚ) ^ e else 1 / (10 : ℚ) ^ e
    some (sgn * (m * factor))

/-- Python `float(str)` on ordinary decimal literals: strip whitespace,
optional sign, `digits[.digits]` or `.digits`, optional exponent.
(The special forms `inf`/`nan` are outside the model.)  Reals are
modelled as exact rationals. -/
def pyFloatOfString (s : String) : Option ℚ :=
  let p := splitSign (pyStripChars s.data)
  let ip := p.2.takeWhile Char.isDigit
  let r1 := p.2.dropWhile Char.isDigit
  let fr : List Char × List Char :=
    match r1 with
    | '.' :: r => (r.takeWhile Char.isDigit, r.dropWhile Char.isDigit)
    | _ => ([], r1)
  if ip = [] ∧ fr.1 = [] then none
  else
    let m : ℚ := (digitsToNat ip : ℚ) + (digitsToNat fr.1 : ℚ) / (10 : ℚ) ^ fr.1.length
    match fr.2 with
    | [] => some (p.1 * m)
    | 'e' :: r3 => pyFloatExp p.1 m r3
    | 'E' :: r3 => pyFloatExp p.1 m r3
    | _ => none

/-- Decimal rendering of an exact rational, matching Python `str` on the
floats that arise in scripts (finite decimals, no trailing zeros, and
`".0"` appended to integral values).  Rationals without a finite decimal
expansion do not arise from the engine's float world; they render as a
fraction. -/
def ratDecimalString (q : ℚ) : String :=
  let sign := if q < 0 then "-" else ""
  let a := q.num.natAbs
  let b := q.den
  match (List.range 40).find? (fun k => b ∣ 10 ^ k) with
  | some k =>
    let scaled := a * 10 ^ k / b
    let ip := scaled / 10 ^ k
    let fp := scaled % 10 ^ k
    if k = 0 then sign ++ toString ip ++ ".0"
    else
      let fpStr := toString fp
      let fpPad := String.mk (List.replicate (k - fpStr.length) '0') ++ fpStr
      sign ++ toString ip ++ "." ++ fpPad
  | none => sign ++ toString a ++ "/" ++ toString b

/-- Python `str()` of a stored value (`repr` quoting of list elements is
built with explicit quote characters). -/
def pyStr : Value → String
  | .str s => s
  | .int n => toString n
  | .num q => ratDecimalString q
  | .bool b => if b then "True" else "False"
  | .list xs =>
    let quote := String.singleton (Char.ofNat 39)
    "[" ++ String.intercalate ", " (xs.map (fun x => quote ++ x ++ quote)) ++ "]"

/-- Python `str()` of `variables.get(k)` — an absent key is `None`. -/
def pyStrOpt : Option Value → String
  | none => "None"
  | some v => pyStr v

/-- Python `float()` applied to a stored value: numbers convert, booleans
are 0/1, strings are parsed, anything else (or an absent value, i.e.
`float(None)`) raises — modelled as `none`. -/
def pyFloat : Value → Option ℚ
  | .str s => pyFloatOfString s
  | .int n => some n
  | .num q => some q
  | .bool b => some (if b then 1 else 0)
  | .list _ => none

/-- Python `int()` applied to a stored value: truncation toward zero for
reals, parse for strings, failure is `none`. -/
def pyInt : Value → Option Int
  | .str s => pyIntOfString s
  | .int n => some n
  | .num q => some (if q ≥ 0 then ⌊q⌋ else ⌈q⌉)
  | .bool b => some (if b then 1 else 0)
  | .list _ => none

/-- Uppercase hexadecimal digit. -/
def hexUpper (n : Nat) : Char :=
  if n < 10 then Char.ofNat (48 + n) else Char.ofNat (55 + n)

/-- UTF-8 encoding of one code point, as byte values. -/
def utf8Encode (c : Char) : List Nat :=
  let n := c.toNat
  if n < 128 then [n]
  else if n < 2048 then [192 + n / 64, 128 + n % 64]
  else if n < 65536 then [224 + n / 4096, 128 + n / 64 % 64, 128 + n % 64]
  else [240 + n / 262144, 128 + n / 4096 % 64, 128 + n / 64 % 64, 128 + n % 64]

/-- Characters `urllib` never encodes (ASCII letters, digits, `_.-~`). -/
def isSafeURLChar (c : Char) : Bool :=
  c.isAlpha || c.isDigit || c = '_' || c = '.' || c = '-' || c = '~'

/-- `%XX` escape of one byte. -/
def pctEncodeByte (b : Nat) : List Char :=
  ['%', hexUpper (b / 16), hexUpper (b % 16)]

/-- `urllib.parse.quote_plus`: safe characters pass through, a space
becomes `+`, every other character is percent-encoded per UTF-8 byte. -/
def quotePlus (s : String) : String :=
  String.mk (s.toList.foldr
    (fun c acc =>
      if c = ' ' then '+' :: acc
      else if isSafeURLChar c then c :: acc
      else (utf8Encode c).foldr (fun b a => pctEncodeByte b ++ a) acc)
    [])

/-- First character of a placeholder / filter identifier
(`[A-Za-z_]` in `_VAR_PATTERN`). -/
def isIdentStart (c : Char) : Bool := c.isAlpha || c = '_'

/-- Subsequent identifier characters (`[A-Za-z0-9_]`). -/
def isIdentChar (c : Char) : Bool := c.isAlpha || c.isDigit || c = '_'

/-- Greedy identifier scan: the maximal identifier at the head of the
input together with the remainder; `none` when the head cannot start an
identifier. -/
def scanIdent : List Char → Option (List Char × List Char)
  | [] => none
  | c :: cs =>
    if isIdentStart c then some (c :: cs.takeWhile isIdentChar, cs.dropWhile isIdentChar)
    else none

/-- Attempt to complete a `_VAR_PATTERN` match directly after a `"${"`:
an identifier, an optional `|filter` identifier, and the closing brace.
Returns the variable name, the optional filter and the unconsumed
remainder. -/
def matchPlaceholder (cs : List Char) : Option (String × Option String × List Char) :=
  match scanIdent cs with
  | none => none
  | some (nm, r1) =>
    match r1 with
    | [] => none
    | c :: r2 =>
      if c = '}' then some (String.mk nm, none, r2)
      else if c = '|' then
        match scanIdent r2 with
        | none => none
        | some (ft, r3) =>
          match r3 with
          | [] => none
          | c2 :: r4 =>
            if c2 = '}' then some (String.mk nm, some (String.mk ft), r4) else none
      else none

/-- `_apply_filter`: recognized percent-encoding filter names. -/
def urlFilterNames : List String := ["url", "urlencode", "quote", "quote_plus"]

/-- `_apply_filter(value, filt)`: normalize the filter name; the
percent-encoding family applies `quote_plus`, anything else (including
no filter) is the identity on the already-stringified value. -/
def applyFilter (value : String) (filt : Option String) : String :=
  let f := stripLower (filt.getD "")
  if f ∈ urlFilterNames then quotePlus value else value

/-- `variables.get(var, "")` followed by stringification: the text a
placeholder resolves to before filtering. -/
def substLookup (vars : Store) (nm : String) : String :=
  match lookupVar vars nm with
  | none => ""
  | some v => pyStr v

/-- Core of `_substitute_vars` (`re.sub` left-to-right scan): a match
can only begin at `"${"`; on a full match the replacement is emitted and
scanning resumes after it, otherwise the `$` is literal text and
scanning resumes at the following character.  Fuel-indexed so the
recursion is structural; every step consumes at least one character, so
`fuel = length` is always sufficient. -/
def substCharsAux (vars : Store) : Nat → List Char → List Char
  | 0, l => l
  | _ + 1, [] => []
  | fuel + 1, c :: cs =>
    if c = '$' then
      match cs with
      | [] => c :: substCharsAux vars fuel cs
      | c2 :: cs2 =>
        if c2 = '{' then
          match matchPlaceholder cs2 with
          | some (nm, ft, rest) =>
            (applyFilter (substLookup vars nm) ft).toList ++ substCharsAux vars fuel rest
          | none => c :: substCharsAux vars fuel cs
        else c :: substCharsAux vars fuel cs
    else c :: substCharsAux vars fuel cs

/-- `_substitute_vars(value, variables)` (on a present attribute value). -/
def substVars (vars : Store) (s : String) : String :=
  String.mk (substCharsAux vars s.toList.length s.toList)

/-- One directive node: tag, ordered attributes, ordered children.
(Inline text and non-element children such as comments, which the
dispatcher skips, are outside the model.) -/
inductive Node : Type where
  | mk : String → List (String × String) → List Node → Node

/-- The node's kind tag. -/
def Node.tag : Node → String
  | .mk t _ _ => t

/-- The node's ordered attribute list (`node.attrib`). -/
def Node.attrs : Node → List (String × String)
  | .mk _ a _ => a

/-- The node's ordered children (`list(node)`). -/
def Node.children : Node → List Node
  | .mk _ _ c => c

/-- `node.get(k)`. -/
def Node.attr (n : Node) (k : String) : Option String :=
  n.attrs.lookup k

/-- Python `a or b` on an optional attribute string: an absent or empty
value falls through to the default. -/
def pyOrStr (o : Option String) (d : String) : String :=
  match o with
  | some s => if s = "" then d else s
  | none => d

/-- `re.split(r"[\r\n]+", raw)` followed by dropping blank items (the
original, unstripped items are kept). -/
def splitLines (s : String) : List String :=
  ((splitOnPred (fun c => c = '\r' ∨ c = '\n') s.data []).map String.mk).filter
    (fun t => pyStripChars t.data ≠ [])

/-- The exceptions the modelled handlers can raise.  Each constructor
corresponds to a distinct Python exception site, so they are mutually
distinguishable. -/
inductive Err where
  | unknownFunction (name : String)
  | unknownForeachFunction (name : String)
  | checkFailed (key : String)
  | badTol (raw : String)
  | listTypeError (name : String)
  | badWaitMs (raw : String)
  | outOfFuel
  deriving DecidableEq, Repr

/-- Ghost instrumentation of a run: the dispatcher records every node it
dispatches, and `handle_foreach` records each body invocation together
with the values of the loop bindings as observed right after they are
written.  `depth` is the fuel level of the recording `foreach`, which
separates its own iterations from those of any `foreach` nested in the
body (nested nodes always run at strictly smaller fuel). -/
inductive Ev where
  | dispatch (tag : String)
  | iterEnter (depth idx : Nat) (varVal indexVal arg0Val : Option Value)
  deriving DecidableEq, Repr

/-- Result of executing a node or a node list: the store after the run,
the instrumentation trace, and the exception that aborted it (if any).
Exceptions propagate — nothing in the engine's run loop catches them —
so a set `err` means the run is over. -/
structure Outcome where
  store : Store
  trace : List Ev
  err : Option Err
  deriving DecidableEq, Repr

/-- The host-language facilities the engine delegates to, as oracles:
`evalVal` is `_safe_eval(expr, variables)` (`none` = the evaluation
raised), `evalBool` is `bool(eval(cond, {"__builtins__": {}}, {}))` from
`handle_if` (empty environment), `extEffect` is the Variable-Store
effect of a collaborator directive (type/click/shell/…), and `shuffle`
is `random.shuffle`. -/
structure EvalOracle where
  evalVal : String → Store → Option Value
  evalBool : String → Option Bool
  extEffect : String → List (String × String) → Store → Store
  shuffle : List String → List String

/-- `handle_if`'s child walk: an `else` tag flips the `in_else` flag and
is itself never executed; other children are kept when the flag agrees
with the condition result. -/
def ifBranchAux (res : Bool) : Bool → List Node → List Node
  | _, [] => []
  | inElse, c :: cs =>
    if lowerStr c.tag = "else" then ifBranchAux res true cs
    else if (res ∧ ¬inElse) ∨ (¬res ∧ inElse) then c :: ifBranchAux res inElse cs
    else ifBranchAux res inElse cs

/-- The children `handle_if` executes for a given condition result. -/
def ifBranch (res : Bool) (cs : List Node) : List Node :=
  ifBranchAux res false cs

/-- `handle_check`'s reserved attribute names. -/
def reservedCheck : List String := ["delay_fixed", "delay_ms", "tol", "comment"]

/-- One `handle_check` comparison: with a tolerance, evaluate the
substituted expected expression and `float()` both it and the stored
value — any failure means the comparison fails — and compare within the
tolerance; without one, compare `str(actual)` with the substituted
expected string. -/
def checkPasses (ev : EvalOracle) (st : Store) (tol : Option ℚ) (k v : String) : Bool :=
  let expectedRaw := substVars st v
  match tol with
  | some t =>
    match (ev.evalVal expectedRaw st).bind pyFloat, (lookupVar st k).bind pyFloat with
    | some exp, some act => decide (|exp - act| ≤ t)
    | _, _ => false
  | none => pyStrOpt (lookupVar st k) == expectedRaw

/-- `handle_check`'s attribute loop: the key of the first non-reserved
attribute whose comparison fails (the `AssertionError` site), if any. -/
def firstCheckFailure (ev : EvalOracle) (st : Store) (tol : Option ℚ) :
    List (String × String) → Option String
  | [] => none
  | (k, v) :: rest =>
    if k ∈ reservedCheck then firstCheckFailure ev st tol rest
    else if checkPasses ev st tol k v then firstCheckFailure ev st tol rest
    else some k

/-- `float(node.get("tol")) if node.get("tol") else None`: an absent or
empty (falsy) attribute yields no tolerance; a non-empty one must parse
as a float or the handler raises before comparing anything. -/
def parseTol (o : Option String) : Except Err (Option ℚ) :=
  match o with
  | none => .ok none
  | some ts =>
    if ts = "" then .ok none
    else
      match pyFloatOfString ts with
      | none => .error (.badTol ts)
      | some t => .ok (some t)

/-- `handle_set`'s store update: every attribute except `delay_fixed`
and `delay_ms` is substituted, evaluated (falling back to the
substituted string when evaluation raises) and assigned, in attribute
order, each assignment visible to later substitutions. -/
def setAttrs (ev : EvalOracle) (attrs : List (String × String)) (s : Store) : Store :=
  attrs.foldl
    (fun st kv =>
      if kv.1 = "delay_fixed" ∨ kv.1 = "delay_ms" then st
      else
        let expr := substVars st kv.2
        setVar st kv.1 ((ev.evalVal expr st).getD (.str expr)))
    s

/-- `handle_call`'s argument binding: every attribute whose name starts
with `arg` is bound as a substituted string, in attribute order, each
binding visible to later substitutions. -/
def bindCallArgs (attrs : List (String × String)) (s : Store) : Store :=
  attrs.foldl
    (fun st kv =>
      if startsWithChars kv.1.data "arg".data then
        setVar st kv.1 (.str (substVars st kv.2))
      else st)
    s

/-- `handle_foreach`'s list resolution: an existing store entry of the
raw attribute name is reused (a string splits into lines, `list()` of a
non-iterable raises `TypeError`); otherwise the substituted attribute
text is split into lines. -/
def resolveItems (s : Store) (listAttr : String) : Except Err (List String) :=
  match lookupVar s listAttr with
  | some (.str t) => .ok (splitLines t)
  | some (.list xs) => .ok xs
  | some _ => .error (.listTypeError listAttr)
  | none => .ok (splitLines (substVars s listAttr))

/-- The directives whose handlers only talk to external collaborators;
their Variable-Store effect is the `extEffect` oracle. -/
def externalTags : List String :=
  ["voice_poll", "type", "click", "hotkey", "shell", "focus", "llmcall", "extnode",
   "voice_event"]

/-- Sequential chaining of per-item executions: run `g` on each item in
order, threading the store, concatenating traces, and freezing at the
first exception (exceptions propagate, so nothing after them runs).
All three loops of the engine (statement lists, `repeat` iterations,
`foreach` iterations) are instances. -/
def chainOut {α : Type} (g : α → Store → Outcome) (l : List α) (st : Store) : Outcome :=
  l.foldl
    (fun o x =>
      if o.err.isSome then o
      else
        let o2 := g x o.store
        ⟨o2.store, o.trace ++ o2.trace, o2.err⟩)
    ⟨st, [], none⟩

/-- One `handle_foreach` iteration: write the three loop bindings
(element variable, `index`, `arg0`, in source order), record the body
invocation with the bindings as observed after writing, then run the
function body from the updated store. -/
def foreachIter (runBody : Store → Outcome) (varName : String) (depth : Nat) :
    Nat × String → Store → Outcome :=
  fun p st2 =>
    let st1 :=
      setVar (setVar (setVar st2 varName (.str p.2)) "index" (.int (Int.ofNat p.1)))
        "arg0" (.str p.2)
    let o2 := runBody st1
    ⟨o2.store,
     Ev.iterEnter depth p.1 (lookupVar st1 varName) (lookupVar st1 "index")
       (lookupVar st1 "arg0") :: o2.trace,
     o2.err⟩

/-- `_exec_node`, fuel-indexed (the fuel bounds the nesting depth of
function bodies; running out of fuel is reported like an exception).
The dispatcher lowercases the tag, records the dispatch, and runs the
matching handler; an unrecognized tag is a no-op.  The `_pause_gate`
poll and the `_delays` epilogue sleep without touching the store and
are modelled by the dedicated wait model below. -/
def execNode (ev : EvalOracle) (funcs : List (String × Node)) :
    Nat → Node → Store → Outcome
  | 0, _, s => ⟨s, [], some .outOfFuel⟩
  | fuel + 1, n, s =>
    let runList : List Node → Store → Outcome := fun ns st =>
      chainOut (fun c st2 => execNode ev funcs fuel c st2) ns st
    let tagl := lowerStr n.tag
    let body : Outcome :=
      if tagl = "set" then
        ⟨setAttrs ev n.attrs s, [], none⟩
      else if tagl = "if" then
        let condExp := String.mk (pyStripChars (substVars s ((n.attr "cond").getD "")).data)
        let res := (ev.evalBool (if condExp = "" then "False" else condExp)).getD false
        runList (ifBranch res n.children) s
      else if tagl = "check" then
        match parseTol (n.attr "tol") with
        | .error e => ⟨s, [], some e⟩
        | .ok tol =>
          match firstCheckFailure ev s tol n.attrs with
          | some k => ⟨s, [], some (.checkFailed k)⟩
          | none => ⟨s, [], none⟩
      else if tagl = "repeat" then
        let expr := pyOrStr (n.attr "times") (pyOrStr (n.attr "count") "0")
        let cnt : Int :=
          match (ev.evalVal (substVars s expr) s).bind pyInt with
          | none => 0
          | some z => max 0 z
        chainOut (fun _ st2 => runList n.children st2) (List.range cnt.toNat) s
      else if tagl = "foreach" then
        let listAttr := pyOrStr (n.attr "list") ""
        let funcName := pyOrStr (n.attr "do") ""
        let varName := pyOrStr (n.attr "var") "item"
        if funcName = "" then ⟨s, [], none⟩
        else
          match resolveItems s listAttr with
          | .error e => ⟨s, [], some e⟩
          | .ok items0 =>
            let shuffleAttr := (n.attr "random_shuffle").getD "0"
            let items :=
              if shuffleAttr = "1" ∨ shuffleAttr = "true" ∨ shuffleAttr = "yes" then
                ev.shuffle items0
              else items0
            match funcs.lookup funcName with
            | none => ⟨s, [], some (.unknownForeachFunction funcName)⟩
            | some f =>
              chainOut
                (foreachIter (fun st1 => runList f.children st1) varName (fuel + 1))
                items.enum s
      else if tagl = "call" then
        match n.attr "name" with
        | none => ⟨s, [], some (.unknownFunction "None")⟩
        | some nm =>
          if nm = "" then ⟨s, [], some (.unknownFunction nm)⟩
          else
            match funcs.lookup nm with
            | none => ⟨s, [], some (.unknownFunction nm)⟩
            | some f => runList f.children (bindCallArgs n.attrs s)
      else if tagl = "func" then
        ⟨s, [], none⟩
      else if tagl = "wait" then
        match pyIntOfString ((n.attr "ms").getD "0") with
        | none => ⟨s, [], some (.badWaitMs ((n.attr "ms").getD "0"))⟩
        | some _ => ⟨s, [], none⟩
      else if tagl ∈ externalTags then
        ⟨ev.extEffect tagl n.attrs s, [], none⟩
      else
        ⟨s, [], none⟩
    ⟨body.store, .dispatch tagl :: body.trace, body.err⟩

/-- Sequential execution of a node list (a function body, an `if`
branch, `repeat` children, or the top-level program): an exception
aborts the remainder. -/
def execList (ev : EvalOracle) (funcs : List (String × Node)) (fuel : Nat)
    (ns : List Node) (st : Store) : Outcome :=
  chainOut (fun c st2 => execNode ev funcs fuel c st2) ns st

/-- `handle_repeat`'s iteration: run the children `k` times in sequence. -/
def execTimes (ev : EvalOracle) (funcs : List (String × Node)) (fuel : Nat)
    (k : Nat) (ns : List Node) (st : Store) : Outcome :=
  chainOut (fun _ st2 => execList ev funcs fuel ns st2) (List.range k) st

/-! ### Basic store and list lemmas -/

/-- Looking up the key just written yields the written value. -/
theorem lookupVar_setVar_self (s : Store) (k : String) (v : Value) :
    lookupVar (setVar s k v) k = some v := by
  induction s with
  | nil => simp [setVar, lookupVar]
  | cons hd tl ih =>
    by_cases h : hd.1 = k
    · simp [setVar, h, lookupVar, List.lookup]
    · have hf : (k == hd.1) = false := beq_eq_false_iff_ne.mpr (Ne.symm h)
      simpa [setVar, h, lookupVar, List.lookup, hf] using ih

/-- Writing one key does not change the lookup of another. -/
theorem lookupVar_setVar_ne (s : Store) {k k2 : String} (v : Value) (h : k ≠ k2) :
    lookupVar (setVar s k2 v) k = lookupVar s k := by
  have hf : (k == k2) = false := beq_eq_false_iff_ne.mpr h
  induction s with
  | nil => simp [setVar, lookupVar, List.lookup, hf]
  | cons hd tl ih =>
    by_cases h2 : hd.1 = k2
    · have hf2 : (k == hd.1) = false := beq_eq_false_iff_ne.mpr (h2 ▸ h)
      simp [setVar, h2, lookupVar, List.lookup, hf2, hf]
    · cases hk : k == hd.1 with
      | true => simp [setVar, h2, lookupVar, List.lookup, hk]
      | false => simpa [setVar, h2, lookupVar, List.lookup, hk] using ih

/-- `dropWhile` never lengthens a list. -/
theorem dropWhile_length_le (p : Char → Bool) (l : List Char) :
    (l.dropWhile p).length ≤ l.length := by
  induction l with
  | nil => simp
  | cons c cs ih =>
    by_cases h : p c
    · simp only [List.dropWhile_cons, h, if_true]
      exact Nat.le_succ_of_le ih
    · simp [List.dropWhile_cons, h]

/-- A successful identifier scan strictly shortens the input. -/
theorem scanIdent_length {cs : List Char} {nm r : List Char}
    (h : scanIdent cs = some (nm, r)) : r.length < cs.length := by
  cases cs with
  | nil => simp [scanIdent] at h
  | cons c rest =>
    by_cases hs : isIdentStart c
    · simp only [scanIdent, hs, if_true, Option.some.injEq, Prod.mk.injEq] at h
      have hd := dropWhile_length_le isIdentChar rest
      have hr : r = rest.dropWhile isIdentChar := h.2.symm
      subst hr
      simpa using Nat.lt_succ_of_le hd
    · simp [scanIdent, hs] at h

/-- A successful placeholder match strictly shortens the input. -/
theorem matchPlaceholder_length {cs : List Char} {nm : String} {ft : Option String}
    {r : List Char} (h : matchPlaceholder cs = some (nm, ft, r)) :
    r.length < cs.length := by
  unfold matchPlaceholder at h
  cases hscan : scanIdent cs with
  | none => rw [hscan] at h; exact absurd h (by simp)
  | some p =>
    obtain ⟨nm1, r1⟩ := p
    rw [hscan] at h
    have hr1 : r1.length < cs.length := scanIdent_length hscan
    cases r1 with
    | nil => simp at h
    | cons c r2 =>
      simp only at h
      by_cases hc : c = '}'
      · simp only [hc, if_true, Option.some.injEq, Prod.mk.injEq] at h
        obtain ⟨-, -, hr⟩ := h
        subst hr
        simp only [List.length_cons] at hr1
        omega
      · by_cases hb : c = '|'
        · subst hb
          rw [if_neg (by decide), if_pos rfl] at h
          cases hscan2 : scanIdent r2 with
          | none => rw [hscan2] at h; exact absurd h (by simp)
          | some p2 =>
            obtain ⟨ft1, r3⟩ := p2
            rw [hscan2] at h
            have hr3 : r3.length < r2.length := scanIdent_length hscan2
            cases r3 with
            | nil => simp at h
            | cons c2 r4 =>
              simp only at h
              by_cases hc2 : c2 = '}'
              · subst hc2
                rw [if_pos rfl] at h
                simp only [Option.some.injEq, Prod.mk.injEq] at h
                have hr := h.2.2
                subst hr
                simp only [List.length_cons] at hr1 hr3
                omega
              · rw [if_neg hc2] at h
                cases h
        · rw [if_neg hc, if_neg hb] at h
          cases h

/-! ### Chaining lemmas -/

/-- One step of `chainOut`'s fold. -/
def chainStep {α : Type} (g : α → Store → Outcome) : Outcome → α → Outcome :=
  fun o x =>
    if o.err.isSome then o
    else
      let o2 := g x o.store
      ⟨o2.store, o.trace ++ o2.trace, o2.err⟩

theorem chainOut_eq_foldl {α : Type} (g : α → Store → Outcome) (l : List α) (st : Store) :
    chainOut g l st = l.foldl (chainStep g) ⟨st, [], none⟩ := rfl

theorem chainOut_nil {α : Type} (g : α → Store → Outcome) (st : Store) :
    chainOut g [] st = ⟨st, [], none⟩ := rfl

/-- Once an exception is recorded, the rest of the fold is inert. -/
theorem chainStep_frozen {α : Type} (g : α → Store → Outcome) (l : List α)
    (o : Outcome) (h : o.err.isSome) : l.foldl (chainStep g) o = o := by
  induction l with
  | nil => rfl
  | cons x xs ih => simp only [List.foldl_cons, chainStep, h, if_true]; exact ih

/-- A pending trace prefix passes through an error-free fold unchanged. -/
theorem chainOut_shift {α : Type} (g : α → Store → Outcome) (l : List α)
    (st : Store) (tr : List Ev) :
    l.foldl (chainStep g) ⟨st, tr, none⟩ =
      ⟨(chainOut g l st).store, tr ++ (chainOut g l st).trace, (chainOut g l st).err⟩ := by
  induction l generalizing st tr with
  | nil => simp [chainOut_nil]
  | cons x xs ih =>
    rw [chainOut_eq_foldl]
    simp only [List.foldl_cons, chainStep, Option.isSome_none, Bool.false_eq_true,
      if_false, List.nil_append]
    cases he : (g x st).err with
    | some e =>
      rw [chainStep_frozen _ _ _ (by simp [he]), chainStep_frozen _ _ _ (by simp [he])]
    | none =>
      rw [ih, ih]
      simp [List.append_assoc]

theorem chainOut_cons_err {α : Type} {g : α → Store → Outcome} {x : α} {st : Store}
    (xs : List α) {e : Err} (h : (g x st).err = some e) :
    chainOut g (x :: xs) st = g x st := by
  rw [chainOut_eq_foldl]
  simp only [List.foldl_cons, chainStep, Option.isSome_none, Bool.false_eq_true, if_false,
    List.nil_append]
  rw [chainStep_frozen _ _ _ (by simp [h])]

theorem chainOut_cons_ok {α : Type} {g : α → Store → Outcome} {x : α} {st : Store}
    (xs : List α) (h : (g x st).err = none) :
    chainOut g (x :: xs) st =
      ⟨(chainOut g xs (g x st).store).store,
       (g x st).trace ++ (chainOut g xs (g x st).store).trace,
       (chainOut g xs (g x st).store).err⟩ := by
  rw [chainOut_eq_foldl]
  simp only [List.foldl_cons, chainStep, Option.isSome_none, Bool.false_eq_true, if_false,
    List.nil_append]
  rw [h, chainOut_shift]

theorem chainOut_append {α : Type} (g : α → Store → Outcome) (xs ys : List α) (st : Store) :
    chainOut g (xs ++ ys) st =
      if (chainOut g xs st).err.isSome then chainOut g xs st
      else
        ⟨(chainOut g ys (chainOut g xs st).store).store,
         (chainOut g xs st).trace ++ (chainOut g ys (chainOut g xs st).store).trace,
         (chainOut g ys (chainOut g xs st).store).err⟩ := by
  rw [chainOut_eq_foldl, List.foldl_append]
  cases he : (chainOut g xs st).err with
  | some e =>
    rw [chainOut_eq_foldl] at he
    rw [chainStep_frozen g ys _ (by rw [he]; rfl)]
    simp [chainOut_eq_foldl, he]
  | none =>
    rw [← chainOut_eq_foldl]
    rcases ho : chainOut g xs st with ⟨os, otr, oerr⟩
    rw [ho] at he
    simp only at he
    subst he
    rw [chainOut_shift]
    simp

/-! ### Handler unfolding lemmas -/

theorem execNode_set_eq (ev : EvalOracle) (fx : List (String × Node)) (fuel : Nat)
    (n : Node) (s : Store) (h : lowerStr n.tag = "set") :
    execNode ev fx (fuel + 1) n s = ⟨setAttrs ev n.attrs s, [.dispatch "set"], none⟩ := by
  simp [execNode, h]

theorem execNode_if_eq (ev : EvalOracle) (fx : List (String × Node)) (fuel : Nat)
    (n : Node) (s : Store) (h : lowerStr n.tag = "if") :
    execNode ev fx (fuel + 1) n s =
      (let condExp := String.mk (pyStripChars (substVars s ((n.attr "cond").getD "")).data)
       let res := (ev.evalBool (if condExp = "" then "False" else condExp)).getD false
       let o := execList ev fx fuel (ifBranch res n.children) s
       ⟨o.store, .dispatch "if" :: o.trace, o.err⟩) := by
  simp [execNode, execList, h]

theorem execNode_check_eq (ev : EvalOracle) (fx : List (String × Node)) (fuel : Nat)
    (n : Node) (s : Store) (h : lowerStr n.tag = "check") :
    execNode ev fx (fuel + 1) n s =
      (match parseTol (n.attr "tol") with
       | .error e => ⟨s, [.dispatch "check"], some e⟩
       | .ok tol =>
         match firstCheckFailure ev s tol n.attrs with
         | some k => ⟨s, [.dispatch "check"], some (.checkFailed k)⟩
         | none => ⟨s, [.dispatch "check"], none⟩) := by
  cases hp : parseTol (n.attr "tol") with
  | error e => simp [execNode, h, hp]
  | ok tol =>
    cases hf : firstCheckFailure ev s tol n.attrs with
    | none => simp [execNode, h, hp, hf]
    | some k => simp [execNode, h, hp, hf]

theorem execNode_repeat_eq (ev : EvalOracle) (fx : List (String × Node)) (fuel : Nat)
    (n : Node) (s : Store) (h : lowerStr n.tag = "repeat") :
    execNode ev fx (fuel + 1) n s =
      (let expr := pyOrStr (n.attr "times") (pyOrStr (n.attr "count") "0")
       let cnt : Int :=
         match (ev.evalVal (substVars s expr) s).bind pyInt with
         | none => 0
         | some z => max 0 z
       let o := execTimes ev fx fuel cnt.toNat n.children s
       ⟨o.store, .dispatch "repeat" :: o.trace, o.err⟩) := by
  simp [execNode, execTimes, execList, h]

theorem execNode_call_eq (ev : EvalOracle) (fx : List (String × Node)) (fuel : Nat)
    (n : Node) (s : Store) (h : lowerStr n.tag = "call") :
    execNode ev fx (fuel + 1) n s =
      (match n.attr "name" with
       | none => ⟨s, [.dispatch "call"], some (.unknownFunction "None")⟩
       | some nm =>
         if nm = "" then ⟨s, [.dispatch "call"], some (.unknownFunction nm)⟩
         else
           match fx.lookup nm with
           | none => ⟨s, [.dispatch "call"], some (.unknownFunction nm)⟩
           | some f =>
             let o := execList ev fx fuel f.children (bindCallArgs n.attrs s)
             ⟨o.store, .dispatch "call" :: o.trace, o.err⟩) := by
  cases hn : n.attr "name" with
  | none => simp [execNode, h, hn]
  | some nm =>
    by_cases hnm : nm = ""
    · simp [execNode, h, hn, hnm]
    · cases hl : fx.lookup nm with
      | none => simp [execNode, h, hn, hnm, hl, execList]
      | some f => simp [execNode, h, hn, hnm, hl, execList]

theorem execNode_foreach_eq (ev : EvalOracle) (fx : List (String × Node)) (fuel : Nat)
    (n : Node) (s : Store) (h : lowerStr n.tag = "foreach") :
    execNode ev fx (fuel + 1) n s =
      (let listAttr := pyOrStr (n.attr "list") ""
       let funcName := pyOrStr (n.attr "do") ""
       let varName := pyOrStr (n.attr "var") "item"
       let body : Outcome :=
         if funcName = "" then ⟨s, [], none⟩
         else
           match resolveItems s listAttr with
           | .error e => ⟨s, [], some e⟩
           | .ok items0 =>
             let shuffleAttr := (n.attr "random_shuffle").getD "0"
             let items :=
               if shuffleAttr = "1" ∨ shuffleAttr = "true" ∨ shuffleAttr = "yes" then
                 ev.shuffle items0
               else items0
             match fx.lookup funcName with
             | none => ⟨s, [], some (.unknownForeachFunction funcName)⟩
             | some f =>
               chainOut
                 (foreachIter (fun st1 => execList ev fx fuel f.children st1) varName
                   (fuel + 1))
                 items.enum s
       ⟨body.store, .dispatch "foreach" :: body.trace, body.err⟩) := by
  by_cases hfn : pyOrStr (n.attr "do") "" = ""
  · simp [execNode, h, hfn]
  · cases hr : resolveItems s (pyOrStr (n.attr "list") "") with
    | error e => simp [execNode, h, hfn, hr]
    | ok items0 =>
      cases hl : fx.lookup (pyOrStr (n.attr "do") "") with
      | none => simp [execNode, h, hfn, hr, hl]
      | some f => simp [execNode, h, hfn, hr, hl, execList]

theorem execNode_func_eq (ev : EvalOracle) (fx : List (String × Node)) (fuel : Nat)
    (n : Node) (s : Store) (h : lowerStr n.tag = "func") :
    execNode ev fx (fuel + 1) n s = ⟨s, [.dispatch "func"], none⟩ := by
  simp [execNode, h]

/-! ### Concrete oracle instantiation -/

/-- The host-evaluator oracle instantiated on the fragment concrete
scripts in this file use: `_safe_eval` on integer/float literals
(anything else raises), `handle_if`'s empty-environment `eval` on the
boolean literals, collaborator directives with no Variable-Store effect,
and an identity shuffle. -/
def litOracle : EvalOracle where
  evalVal := fun s _ =>
    match pyIntOfString s with
    | some n => some (.int n)
    | none =>
      match pyFloatOfString s with
      | some q => some (.num q)
      | none => none
  evalBool := fun s =>
    if s = "True" then some true else if s = "False" then some false else none
  extEffect := fun _ _ st => st
  shuffle := id

/-! ### Auxiliary store lemmas -/

/-- A bound key stays bound across any further write. -/
theorem lookupVar_setVar_isSome (s : Store) (k k2 : String) (v : Value)
    (h : (lookupVar s k).isSome) : (lookupVar (setVar s k2 v) k).isSome := by
  by_cases he : k = k2
  · subst he; rw [lookupVar_setVar_self]; rfl
  · rwa [lookupVar_setVar_ne _ _ he]

theorem setAttrs_cons (ev : EvalOracle) (kv : String × String)
    (rest : List (String × String)) (s : Store) :
    setAttrs ev (kv :: rest) s =
      setAttrs ev rest
        (if kv.1 = "delay_fixed" ∨ kv.1 = "delay_ms" then s
         else
           setVar s kv.1
             ((ev.evalVal (substVars s kv.2) s).getD (.str (substVars s kv.2)))) := by
  by_cases h : kv.1 = "delay_fixed" ∨ kv.1 = "delay_ms" <;>
    simp [setAttrs, List.foldl_cons, h]

/-- `handle_set` keeps a bound key bound. -/
theorem setAttrs_preserves_isSome (ev : EvalOracle) (attrs : List (String × String))
    (s : Store) (k : String) (h : (lookupVar s k).isSome) :
    (lookupVar (setAttrs ev attrs s) k).isSome := by
  induction attrs generalizing s with
  | nil => exact h
  | cons kv rest ih =>
    rw [setAttrs_cons]
    by_cases hr : kv.1 = "delay_fixed" ∨ kv.1 = "delay_ms"
    · simp only [hr, if_true]; exact ih s h
    · simp only [hr, if_false]
      exact ih _ (lookupVar_setVar_isSome _ _ _ _ h)

/-- C7 (amended): the attribute loop of `handle_set` skips exactly
`delay_fixed` and `delay_ms` — those two names are never written, any
other attribute (including `tol` and `comment`) is written — while
`handle_check` never writes the Variable Store at all. -/
theorem set_reserved_exclusions (ev : EvalOracle) (fx : List (String × Node))
    (fuel : Nat) (n : Node) (s : Store) (k : String) :
    ((k = "delay_fixed" ∨ k = "delay_ms") →
      lookupVar (setAttrs ev n.attrs s) k = lookupVar s k) ∧
    (k ≠ "delay_fixed" → k ≠ "delay_ms" → (∃ v, (k, v) ∈ n.attrs) →
      (lookupVar (setAttrs ev n.attrs s) k).isSome) ∧
    (lowerStr n.tag = "set" →
      (execNode ev fx (fuel + 1) n s).store = setAttrs ev n.attrs s) ∧
    (lowerStr n.tag = "check" → (execNode ev fx (fuel + 1) n s).store = s) := by
  refine ⟨?_, ?_, ?_, ?_⟩
  · intro hres
    have hgen : ∀ (attrs : List (String × String)) (st : Store),
        lookupVar (setAttrs ev attrs st) k = lookupVar st k := by
      intro attrs
      induction attrs with
      | nil => intro st; rfl
      | cons kv rest ih =>
        intro st
        rw [setAttrs_cons]
        by_cases hr : kv.1 = "delay_fixed" ∨ kv.1 = "delay_ms"
        · simp only [hr, if_true]; exact ih st
        · simp only [hr, if_false]
          rw [ih]
          refine lookupVar_setVar_ne _ _ ?_
          intro he
          rcases hres with h1 | h1 <;> simp_all
    exact hgen n.attrs s
  · intro h1 h2 hmem
    obtain ⟨v, hv⟩ := hmem
    have hgen : ∀ (attrs : List (String × String)) (st : Store),
        (k, v) ∈ attrs → (lookupVar (setAttrs ev attrs st) k).isSome := by
      intro attrs
      induction attrs with
      | nil => intro st hm; cases hm
      | cons kv rest ih =>
        intro st hm
        rw [setAttrs_cons]
        rcases List.mem_cons.mp hm with he | hm2
        · have hk : kv.1 = k := by rw [← he]
          have hr : ¬ (kv.1 = "delay_fixed" ∨ kv.1 = "delay_ms") := by
            rw [hk]; tauto
          simp only [hr, if_false]
          apply setAttrs_preserves_isSome
          rw [hk, lookupVar_setVar_self]
          rfl
        · by_cases hr : kv.1 = "delay_fixed" ∨ kv.1 = "delay_ms"
          · simp only [hr, if_true]; exact ih st hm2
          · simp only [hr, if_false]; exact ih _ hm2
    exact hgen n.attrs s hv
  · intro h
    rw [execNode_set_eq ev fx fuel n s h]
  · intro h
    rw [execNode_check_eq ev fx fuel n s h]
    cases hp : parseTol (n.attr "tol") with
    | error e => rfl
    | ok tol =>
      cases hf : firstCheckFailure ev s tol n.attrs with
      | none => simp [hf]
      | some k2 => simp [hf]

/-- C7 (counterexample): executing `<set tol="5" comment="hi"/>` from an
empty store creates Variable Store entries named `tol` and `comment`;
`handle_set`'s iteration skips only `delay_fixed` and `delay_ms`, so the
claim that `set` excludes `tol` and `comment` is false. -/
theorem set_writes_tol_and_comment :
    lookupVar
        (execNode litOracle [] 1 (.mk "set" [("tol", "5"), ("comment", "hi")] []) []).store
        "tol" = some (.int 5) ∧
    lookupVar
        (execNode litOracle [] 1 (.mk "set" [("tol", "5"), ("comment", "hi")] []) []).store
        "comment" = some (.str "hi") := by
  with_unfolding_all decide

/-- C7 (witness): a `set` with a `delay_ms` attribute leaves `delay_ms`
unbound while binding its ordinary attribute. -/
theorem set_reserved_exclusions_witness :
    lookupVar
        (setAttrs litOracle (Node.mk "set" [("delay_ms", "100"), ("x", "5")] []).attrs [])
        "delay_ms" = lookupVar [] "delay_ms" ∧
    (lookupVar
        (setAttrs litOracle (Node.mk "set" [("delay_ms", "100"), ("x", "5")] []).attrs [])
        "x").isSome := by
  refine ⟨(set_reserved_exclusions litOracle [] 0
      (Node.mk "set" [("delay_ms", "100"), ("x", "5")] []) [] "delay_ms").1 (Or.inr rfl),
    (set_reserved_exclusions litOracle [] 0
      (Node.mk "set" [("delay_ms", "100"), ("x", "5")] []) [] "x").2.1
      (by decide) (by decide) ⟨"5", by decide⟩⟩

/-- C3: a `call` whose `name` is missing, empty, or not registered in the
function table raises the distinguishable `Unknown function` error with
the Variable Store untouched and nothing executed beyond the dispatch
itself (no argument binding, no body statement); a registered `call`
first binds every `arg`-prefixed attribute as a substituted string into
the shared store and then executes the function body inline from that
store. -/
theorem call_semantics (ev : EvalOracle) (fx : List (String × Node)) (fuel : Nat)
    (n : Node) (s : Store) (h : lowerStr n.tag = "call") :
    ((n.attr "name" = none ∨ n.attr "name" = some "" ∨
        (∃ nm, n.attr "name" = some nm ∧ fx.lookup nm = none)) →
      ∃ msg, execNode ev fx (fuel + 1) n s =
        ⟨s, [.dispatch "call"], some (.unknownFunction msg)⟩) ∧
    (∀ nm f, n.attr "name" = some nm → nm ≠ "" → fx.lookup nm = some f →
      execNode ev fx (fuel + 1) n s =
        ⟨(execList ev fx fuel f.children (bindCallArgs n.attrs s)).store,
         .dispatch "call" :: (execList ev fx fuel f.children (bindCallArgs n.attrs s)).trace,
         (execList ev fx fuel f.children (bindCallArgs n.attrs s)).err⟩) ∧
    (∀ k v s2, startsWithChars k.data "arg".data = true →
      lookupVar (bindCallArgs [(k, v)] s2) k = some (.str (substVars s2 v))) ∧
    (∀ k v s2, startsWithChars k.data "arg".data = false →
      bindCallArgs [(k, v)] s2 = s2) := by
  rw [execNode_call_eq ev fx fuel n s h]
  refine ⟨?_, ?_, ?_, ?_⟩
  · rintro (hn | hn | ⟨nm, hn, hl⟩)
    · rw [hn]; exact ⟨"None", rfl⟩
    · rw [hn]; exact ⟨"", by simp⟩
    · rw [hn]
      by_cases hnm : nm = ""
      · exact ⟨nm, by simp [hnm]⟩
      · exact ⟨nm, by simp [hnm, hl]⟩
  · intro nm f hn hnm hl
    rw [hn]
    simp [hnm, hl]
  · intro k v s2 hpre
    simp only [bindCallArgs, List.foldl_cons, List.foldl_nil, hpre, if_true]
    exact lookupVar_setVar_self _ _ _
  · intro k v s2 hpre
    simp [bindCallArgs, hpre]

/-- C3 (witness): a `call` to an unregistered name fails with the
distinguishable error and leaves the store exactly as it was, while a
registered `call` binds `arg0` and runs the (empty) body. -/
theorem call_semantics_witness :
    (∃ msg,
      execNode litOracle [] 1 (.mk "call" [("name", "missing"), ("arg0", "v")] [])
          [("a", .int 1)] =
        ⟨[("a", .int 1)], [.dispatch "call"], some (.unknownFunction msg)⟩) ∧
    execNode litOracle [("g", .mk "func" [("name", "g")] [])] 1
        (.mk "call" [("name", "g"), ("arg0", "v")] []) [] =
      ⟨(execList litOracle [("g", .mk "func" [("name", "g")] [])] 0 []
          (bindCallArgs [("name", "g"), ("arg0", "v")] [])).store,
       .dispatch "call" ::
         (execList litOracle [("g", .mk "func" [("name", "g")] [])] 0 []
           (bindCallArgs [("name", "g"), ("arg0", "v")] [])).trace,
       (execList litOracle [("g", .mk "func" [("name", "g")] [])] 0 []
         (bindCallArgs [("name", "g"), ("arg0", "v")] [])).err⟩ := by
  constructor
  · exact (call_semantics litOracle [] 0
        (.mk "call" [("name", "missing"), ("arg0", "v")] []) [("a", .int 1)]
        (by with_unfolding_all decide)).1
      (Or.inr (Or.inr ⟨"missing", rfl, rfl⟩))
  · exact (call_semantics litOracle [("g", .mk "func" [("name", "g")] [])] 0
        (.mk "call" [("name", "g"), ("arg0", "v")] []) []
        (by with_unfolding_all decide)).2.1 "g" (.mk "func" [("name", "g")] []) rfl
      (by decide) rfl

theorem chainOut_singleton {α : Type} (g : α → Store → Outcome) (x : α) (st : Store) :
    chainOut g [x] st = g x st := by
  cases he : (g x st).err with
  | some e => rw [chainOut_cons_err [] he]
  | none =>
    rw [chainOut_cons_ok [] he, chainOut_nil]
    cases ho : g x st
    simp_all

/-- `handle_repeat` for `k + 1` iterations runs `k` iterations and then,
if no exception froze the run, the children once more in sequence. -/
theorem execTimes_succ (ev : EvalOracle) (fx : List (String × Node)) (fuel k : Nat)
    (ns : List Node) (st : Store) :
    execTimes ev fx fuel (k + 1) ns st =
      if (execTimes ev fx fuel k ns st).err.isSome then execTimes ev fx fuel k ns st
      else
        ⟨(execList ev fx fuel ns (execTimes ev fx fuel k ns st).store).store,
         (execTimes ev fx fuel k ns st).trace ++
           (execList ev fx fuel ns (execTimes ev fx fuel k ns st).store).trace,
         (execList ev fx fuel ns (execTimes ev fx fuel k ns st).store).err⟩ := by
  show chainOut _ (List.range (k + 1)) st = _
  rw [List.range_succ, chainOut_append]
  cases he : (chainOut (fun _ st2 => execList ev fx fuel ns st2) (List.range k) st).err with
  | some e => simp [execTimes, he]
  | none => simp [execTimes, he, chainOut_singleton]

/-- C6: `handle_repeat` substitutes and evaluates the count expression
(`times`, falling back to `count`, falling back to `"0"`); an evaluation
or conversion failure, and likewise a negative result, executes the
children zero times (store and trace untouched), while a non-negative
result `z` executes the ordered children sequentially exactly `z` times
(`execTimes`, whose successor step is `execTimes_succ`). -/
theorem repeat_semantics (ev : EvalOracle) (fx : List (String × Node)) (fuel : Nat)
    (n : Node) (s : Store) (h : lowerStr n.tag = "repeat") :
    ((ev.evalVal
          (substVars s (pyOrStr (n.attr "times") (pyOrStr (n.attr "count") "0"))) s).bind
        pyInt = none →
      execNode ev fx (fuel + 1) n s = ⟨s, [.dispatch "repeat"], none⟩) ∧
    (∀ z : Int,
      (ev.evalVal
          (substVars s (pyOrStr (n.attr "times") (pyOrStr (n.attr "count") "0"))) s).bind
        pyInt = some z → z < 0 →
      execNode ev fx (fuel + 1) n s = ⟨s, [.dispatch "repeat"], none⟩) ∧
    (∀ z : Int,
      (ev.evalVal
          (substVars s (pyOrStr (n.attr "times") (pyOrStr (n.attr "count") "0"))) s).bind
        pyInt = some z → 0 ≤ z →
      execNode ev fx (fuel + 1) n s =
        ⟨(execTimes ev fx fuel z.toNat n.children s).store,
         .dispatch "repeat" :: (execTimes ev fx fuel z.toNat n.children s).trace,
         (execTimes ev fx fuel z.toNat n.children s).err⟩) := by
  rw [execNode_repeat_eq ev fx fuel n s h]
  dsimp only
  refine ⟨?_, ?_, ?_⟩
  · intro he
    rw [he]
    simp [execTimes, chainOut_nil]
  · intro z he hz
    rw [he]
    have h0 : (max 0 z).toNat = 0 := by omega
    simp only [h0]
    simp [execTimes, chainOut_nil]
  · intro z he hz
    rw [he]
    have h0 : (max 0 z).toNat = z.toNat := by omega
    simp only [h0]

/-- C6 (witness): `times="3"` over a single `wait` child dispatches the
child exactly three times; `times="-1"` dispatches nothing. -/
theorem repeat_semantics_witness :
    execNode litOracle [] 2 (.mk "repeat" [("times", "3")] [.mk "wait" [] []]) [] =
      ⟨[], [.dispatch "repeat", .dispatch "wait", .dispatch "wait", .dispatch "wait"],
       none⟩ ∧
    execNode litOracle [] 2 (.mk "repeat" [("times", "-1")] [.mk "wait" [] []]) [] =
      ⟨[], [.dispatch "repeat"], none⟩ := by
  constructor
  · exact ((repeat_semantics litOracle [] 1
        (.mk "repeat" [("times", "3")] [.mk "wait" [] []]) []
        (by with_unfolding_all decide)).2.2 3 (by with_unfolding_all decide)
        (by decide)).trans (by with_unfolding_all decide)
  · exact (repeat_semantics litOracle [] 1
      (.mk "repeat" [("times", "-1")] [.mk "wait" [] []]) []
      (by with_unfolding_all decide)).2.1 (-1) (by with_unfolding_all decide) (by decide)

/-- Children that are not an `else` marker. -/
def notElse (c : Node) : Bool :=
  !(lowerStr c.tag == "else")

theorem ifBranchAux_true_after_else (cs : List Node) :
    ifBranchAux true true cs = [] := by
  induction cs with
  | nil => rfl
  | cons c rest ih =>
    by_cases hc : lowerStr c.tag = "else" <;> simp [ifBranchAux, hc, ih]

theorem ifBranchAux_false_after_else (cs : List Node) :
    ifBranchAux false true cs = cs.filter notElse := by
  induction cs with
  | nil => rfl
  | cons c rest ih =>
    by_cases hc : lowerStr c.tag = "else" <;>
      simp [ifBranchAux, hc, ih, List.filter_cons, notElse]

theorem ifBranch_true_eq (cs : List Node) :
    ifBranch true cs = cs.takeWhile notElse := by
  unfold ifBranch
  induction cs with
  | nil => rfl
  | cons c rest ih =>
    by_cases hc : lowerStr c.tag = "else"
    · simp [ifBranchAux, hc, ifBranchAux_true_after_else, List.takeWhile_cons, notElse]
    · simp [ifBranchAux, hc, ih, List.takeWhile_cons, notElse]

theorem ifBranch_false_eq (cs : List Node) :
    ifBranch false cs = ((cs.dropWhile notElse).drop 1).filter notElse := by
  unfold ifBranch
  induction cs with
  | nil => rfl
  | cons c rest ih =>
    by_cases hc : lowerStr c.tag = "else"
    · simp [ifBranchAux, hc, ifBranchAux_false_after_else, List.dropWhile_cons, notElse]
    · simp [ifBranchAux, hc, ih, List.dropWhile_cons, notElse]

theorem ifBranch_no_else (res : Bool) (cs : List Node) (c : Node)
    (hm : c ∈ ifBranch res cs) : lowerStr c.tag ≠ "else" := by
  cases res
  · rw [ifBranch_false_eq] at hm
    have := List.of_mem_filter hm
    simpa [notElse] using this
  · rw [ifBranch_true_eq] at hm
    have := List.takeWhile_subset (l := cs) (p := notElse)
    have h2 : notElse c = true := List.mem_takeWhile_imp hm
    simpa [notElse] using h2

/-- C8: `handle_if` substitutes the `cond` attribute, strips it, treats
an empty result as `False`, and evaluates it with the empty-environment
boolean evaluator, any evaluation failure yielding `false`; when the
result is true it executes exactly the children preceding the first
`else` marker, when false exactly the non-`else` children following the
first `else` marker, in order, and an `else` marker itself is never
executed. -/
theorem if_semantics (ev : EvalOracle) (fx : List (String × Node)) (fuel : Nat)
    (n : Node) (s : Store) (h : lowerStr n.tag = "if") :
    (execNode ev fx (fuel + 1) n s =
      (let condExp := String.mk (pyStripChars (substVars s ((n.attr "cond").getD "")).data)
       let res := (ev.evalBool (if condExp = "" then "False" else condExp)).getD false
       let o := execList ev fx fuel (ifBranch res n.children) s
       ⟨o.store, .dispatch "if" :: o.trace, o.err⟩)) ∧
    (∀ cs : List Node, ifBranch true cs = cs.takeWhile notElse) ∧
    (∀ cs : List Node, ifBranch false cs = ((cs.dropWhile notElse).drop 1).filter notElse) ∧
    (∀ (res : Bool) (cs : List Node) (c : Node), c ∈ ifBranch res cs →
      lowerStr c.tag ≠ "else") :=
  ⟨execNode_if_eq ev fx fuel n s h, ifBranch_true_eq, ifBranch_false_eq, ifBranch_no_else⟩

/-- C8 (witness): with a true condition only the pre-`else` child runs,
with an unevaluable condition (error ⇒ false) only the post-`else` child
runs, and the `else` marker is dispatched in neither case. -/
theorem if_semantics_witness :
    execNode litOracle [] 2
        (.mk "if" [("cond", "True")]
          [.mk "wait" [] [], .mk "else" [] [], .mk "func" [] []]) [] =
      ⟨[], [.dispatch "if", .dispatch "wait"], none⟩ ∧
    execNode litOracle [] 2
        (.mk "if" [("cond", "bogus")]
          [.mk "wait" [] [], .mk "else" [] [], .mk "func" [] []]) [] =
      ⟨[], [.dispatch "if", .dispatch "func"], none⟩ := by
  constructor
  · exact ((if_semantics litOracle [] 1
        (.mk "if" [("cond", "True")]
          [.mk "wait" [] [], .mk "else" [] [], .mk "func" [] []]) []
        (by with_unfolding_all decide)).1).trans (by with_unfolding_all decide)
  · exact ((if_semantics litOracle [] 1
        (.mk "if" [("cond", "bogus")]
          [.mk "wait" [] [], .mk "else" [] [], .mk "func" [] []]) []
        (by with_unfolding_all decide)).1).trans (by with_unfolding_all decide)

/-- With a tolerance, one `check` comparison passes exactly when the
evaluated expected expression and the stored value both convert to
numbers within the tolerance of each other (so any evaluation or
conversion failure — including an unset variable, `float(None)` — makes
it fail). -/
theorem checkPasses_tol_iff (ev : EvalOracle) (st : Store) (t : ℚ) (k v : String) :
    checkPasses ev st (some t) k v = true ↔
      ∃ q qa : ℚ,
        (ev.evalVal (substVars st v) st).bind pyFloat = some q ∧
        (lookupVar st k).bind pyFloat = some qa ∧ |q - qa| ≤ t := by
  unfold checkPasses
  cases he : (ev.evalVal (substVars st v) st).bind pyFloat with
  | none => simp [he]
  | some q =>
    cases ha : (lookupVar st k).bind pyFloat with
    | none => simp [he, ha]
    | some qa => simp [he, ha, decide_eq_true_eq]

/-- Without a tolerance, one `check` comparison passes exactly when the
stringified stored value equals the substituted expected string. -/
theorem checkPasses_str_iff (ev : EvalOracle) (st : Store) (k v : String) :
    checkPasses ev st none k v = true ↔ pyStrOpt (lookupVar st k) = substVars st v := by
  unfold checkPasses
  exact beq_iff_eq ..

/-- `handle_check` raises no `AssertionError` exactly when every
non-reserved attribute's comparison passes. -/
theorem firstCheckFailure_none_iff (ev : EvalOracle) (st : Store) (tol : Option ℚ)
    (attrs : List (String × String)) :
    firstCheckFailure ev st tol attrs = none ↔
      ∀ kv ∈ attrs, kv.1 ∉ reservedCheck → checkPasses ev st tol kv.1 kv.2 = true := by
  induction attrs with
  | nil => simp [firstCheckFailure]
  | cons kv rest ih =>
    by_cases hr : kv.1 ∈ reservedCheck
    · simp only [firstCheckFailure, hr, if_true]
      rw [ih]
      constructor
      · intro hall kv2 hm hnr
        rcases List.mem_cons.mp hm with he | hm2
        · exact absurd (he ▸ hr) hnr
        · exact hall kv2 hm2 hnr
      · intro hall kv2 hm2 hnr
        exact hall kv2 (List.mem_cons_of_mem _ hm2) hnr
    · by_cases hp : checkPasses ev st tol kv.1 kv.2 = true
      · simp only [firstCheckFailure, hr, if_false, hp, if_true]
        rw [ih]
        constructor
        · intro hall kv2 hm hnr
          rcases List.mem_cons.mp hm with he | hm2
          · exact he ▸ hp
          · exact hall kv2 hm2 hnr
        · intro hall kv2 hm2 hnr
          exact hall kv2 (List.mem_cons_of_mem _ hm2) hnr
      · have hpf : checkPasses ev st tol kv.1 kv.2 = false :=
          Bool.eq_false_iff.mpr hp
        simp only [firstCheckFailure, hr, if_false, hpf, Bool.false_eq_true]
        constructor
        · intro hfalse; cases hfalse
        · intro hall
          exact absurd (hall kv (List.mem_cons_self kv rest) hr) hp

/-- C2: with a numeric tolerance `t`, a `check` succeeds exactly when
for every non-reserved attribute both the evaluated expected expression
and the stored value convert to numbers at most `t` apart (any failure
to evaluate or convert fails the comparison); with no tolerance
attribute it succeeds exactly when each stringified stored value equals
its substituted expected string; the handler never modifies the store,
and a failing comparison raises an `AssertionError` that aborts the
statement sequence — the following statements never execute, with no
retry. -/
theorem check_semantics (ev : EvalOracle) (fx : List (String × Node)) (fuel : Nat)
    (n : Node) (s : Store) (h : lowerStr n.tag = "check") :
    (∀ t : ℚ, parseTol (n.attr "tol") = .ok (some t) →
      ((execNode ev fx (fuel + 1) n s).err = none ↔
        ∀ kv ∈ n.attrs, kv.1 ∉ reservedCheck →
          ∃ q qa : ℚ,
            (ev.evalVal (substVars s kv.2) s).bind pyFloat = some q ∧
            (lookupVar s kv.1).bind pyFloat = some qa ∧ |q - qa| ≤ t)) ∧
    (parseTol (n.attr "tol") = .ok none →
      ((execNode ev fx (fuel + 1) n s).err = none ↔
        ∀ kv ∈ n.attrs, kv.1 ∉ reservedCheck →
          pyStrOpt (lookupVar s kv.1) = substVars s kv.2)) ∧
    ((execNode ev fx (fuel + 1) n s).store = s) ∧
    (∀ (e : Err) (rest : List Node), (execNode ev fx (fuel + 1) n s).err = some e →
      execList ev fx (fuel + 1) (n :: rest) s = execNode ev fx (fuel + 1) n s) := by
  have herr : ∀ tol, parseTol (n.attr "tol") = .ok tol →
      ((execNode ev fx (fuel + 1) n s).err = none ↔
        firstCheckFailure ev s tol n.attrs = none) := by
    intro tol hp
    rw [execNode_check_eq ev fx fuel n s h, hp]
    cases hf : firstCheckFailure ev s tol n.attrs with
    | none => simp [hf]
    | some k => simp [hf]
  refine ⟨?_, ?_, ?_, ?_⟩
  · intro t hp
    rw [herr (some t) hp, firstCheckFailure_none_iff]
    constructor
    · intro hall kv hm hnr
      exact (checkPasses_tol_iff ev s t kv.1 kv.2).mp (hall kv hm hnr)
    · intro hall kv hm hnr
      exact (checkPasses_tol_iff ev s t kv.1 kv.2).mpr (hall kv hm hnr)
  · intro hp
    rw [herr none hp, firstCheckFailure_none_iff]
    constructor
    · intro hall kv hm hnr
      exact (checkPasses_str_iff ev s kv.1 kv.2).mp (hall kv hm hnr)
    · intro hall kv hm hnr
      exact (checkPasses_str_iff ev s kv.1 kv.2).mpr (hall kv hm hnr)
  · rw [execNode_check_eq ev fx fuel n s h]
    cases hp : parseTol (n.attr "tol") with
    | error e => rfl
    | ok tol =>
      cases hf : firstCheckFailure ev s tol n.attrs with
      | none => simp [hf]
      | some k2 => simp [hf]
  · intro e rest herr2
    exact chainOut_cons_err rest herr2

/-- C2 (witness): with `tol="0.01"` and stored `x = 1.004`, expected
expression `"1.0"` passes, expected `"1.02"` fails and the failing check
aborts the sequence before a following statement runs. -/
theorem check_semantics_witness :
    (execNode litOracle [] 1 (.mk "check" [("x", "1.0"), ("tol", "0.01")] [])
        [("x", .num (251 / 250))]).err = none ∧
    (execNode litOracle [] 1 (.mk "check" [("x", "1.02"), ("tol", "0.01")] [])
        [("x", .num (251 / 250))]).err ≠ none ∧
    execList litOracle [] 1
        [.mk "check" [("x", "1.02"), ("tol", "0.01")] [], .mk "wait" [] []]
        [("x", .num (251 / 250))] =
      execNode litOracle [] 1 (.mk "check" [("x", "1.02"), ("tol", "0.01")] [])
        [("x", .num (251 / 250))] := by
  have herr : (execNode litOracle [] 1 (.mk "check" [("x", "1.02"), ("tol", "0.01")] [])
      [("x", .num (251 / 250))]).err = some (.checkFailed "x") := by
    with_unfolding_all decide
  refine ⟨?_, ?_, ?_⟩
  · refine ((check_semantics litOracle [] 0 (.mk "check" [("x", "1.0"), ("tol", "0.01")] [])
        [("x", .num (251 / 250))] (by with_unfolding_all decide)).1 (1 / 100)
        (by with_unfolding_all rfl)).mpr ?_
    intro kv hm hnr
    have hm0 : kv ∈ [("x", "1.0"), ("tol", "0.01")] := hm
    have hm2 : kv = ("x", "1.0") ∨ kv = ("tol", "0.01") := by
      simpa using hm0
    rcases hm2 with he | he
    · subst he
      exact ⟨1, 251 / 250, by with_unfolding_all decide, by with_unfolding_all decide,
        by with_unfolding_all decide⟩
    · subst he
      exact absurd (by decide) hnr
  · rw [herr]; simp
  · exact (check_semantics litOracle [] 0 (.mk "check" [("x", "1.02"), ("tol", "0.01")] [])
      [("x", .num (251 / 250))] (by with_unfolding_all decide)).2.2.2
      (.checkFailed "x") [.mk "wait" [] []] herr

/-- Project a foreach-iteration event recorded at a given depth. -/
def iterEvOf (d : Nat) : Ev → Option (Nat × Option Value × Option Value × Option Value)
  | .iterEnter d2 i a b c => if d2 = d then some (i, a, b, c) else none
  | .dispatch _ => none

/-- The iteration events a given `foreach` (identified by its fuel
depth) recorded in a trace, in order. -/
def iterEventsAt (d : Nat) (tr : List Ev) :
    List (Nat × Option Value × Option Value × Option Value) :=
  tr.filterMap (iterEvOf d)

/-- Every event of a chained run comes from one of the per-item runs. -/
theorem chainOut_trace_mem {α : Type} (g : α → Store → Outcome) (l : List α)
    (st : Store) (e : Ev) (he : e ∈ (chainOut g l st).trace) :
    ∃ x st2, x ∈ l ∧ e ∈ (g x st2).trace := by
  induction l generalizing st with
  | nil => rw [chainOut_nil] at he; cases he
  | cons x xs ih =>
    cases herr : (g x st).err with
    | some e2 =>
      rw [chainOut_cons_err xs herr] at he
      exact ⟨x, st, List.mem_cons_self x xs, he⟩
    | none =>
      rw [chainOut_cons_ok xs herr] at he
      rcases List.mem_append.mp he with h1 | h2
      · exact ⟨x, st, List.mem_cons_self x xs, h1⟩
      · obtain ⟨x2, st2, hx2, he2⟩ := ih (g x st).store h2
        exact ⟨x2, st2, List.mem_cons_of_mem _ hx2, he2⟩

/-- Directives other than `if`, `repeat`, `foreach` and `call` dispatch
no nested statements: their trace is the dispatch record alone. -/
theorem execNode_trace_simple (ev : EvalOracle) (fx : List (String × Node)) (fuel : Nat)
    (n : Node) (s : Store) (h1 : lowerStr n.tag ≠ "if") (h2 : lowerStr n.tag ≠ "repeat")
    (h3 : lowerStr n.tag ≠ "foreach") (h4 : lowerStr n.tag ≠ "call") :
    (execNode ev fx (fuel + 1) n s).trace = [.dispatch (lowerStr n.tag)] := by
  by_cases hs : lowerStr n.tag = "set"
  · rw [execNode_set_eq ev fx fuel n s hs, hs]
  by_cases hc : lowerStr n.tag = "check"
  · rw [execNode_check_eq ev fx fuel n s hc, hc]
    cases hp : parseTol (n.attr "tol") with
    | error e => rfl
    | ok tol =>
      cases hf : firstCheckFailure ev s tol n.attrs with
      | none => simp [hf]
      | some k => simp [hf]
  by_cases hf : lowerStr n.tag = "func"
  · rw [execNode_func_eq ev fx fuel n s hf, hf]
  · simp only [execNode, h1, h2, h3, h4, hs, hc, hf, if_false]
    by_cases hw : lowerStr n.tag = "wait"
    · simp only [hw, if_true]
      cases pyIntOfString ((n.attr "ms").getD "0") <;> simp
    · simp only [hw, if_false]
      by_cases hx : lowerStr n.tag ∈ externalTags <;> simp [hx]

/-- Iteration events recorded anywhere inside a run at a given fuel
level carry a depth of at most that fuel: a nested `foreach` can never
impersonate an enclosing one. -/
theorem iterEnter_depth_le (ev : EvalOracle) (fx : List (String × Node)) :
    ∀ (fuel : Nat) (n : Node) (s : Store) (d i : Nat)
      (a b c : Option Value),
      Ev.iterEnter d i a b c ∈ (execNode ev fx fuel n s).trace → d ≤ fuel := by
  intro fuel
  induction fuel with
  | zero => intro n s d i a b c hm; cases hm
  | succ fuel ih =>
    intro n s d i a b c hm
    by_cases h1 : lowerStr n.tag = "if"
    · rw [execNode_if_eq ev fx fuel n s h1] at hm
      simp only at hm
      rcases List.mem_cons.mp hm with he | hm2
      · cases he
      · obtain ⟨x, st2, -, he2⟩ := chainOut_trace_mem _ _ _ _ hm2
        exact Nat.le_succ_of_le (ih x st2 d i a b c he2)
    by_cases h2 : lowerStr n.tag = "repeat"
    · rw [execNode_repeat_eq ev fx fuel n s h2] at hm
      simp only at hm
      rcases List.mem_cons.mp hm with he | hm2
      · cases he
      · obtain ⟨x, st2, -, he2⟩ := chainOut_trace_mem _ _ _ _ hm2
        obtain ⟨x3, st3, -, he3⟩ := chainOut_trace_mem _ _ _ _ he2
        exact Nat.le_succ_of_le (ih x3 st3 d i a b c he3)
    by_cases h3 : lowerStr n.tag = "foreach"
    · rw [execNode_foreach_eq ev fx fuel n s h3] at hm
      simp only at hm
      by_cases hfn : pyOrStr (n.attr "do") "" = ""
      · simp only [hfn, if_true] at hm
        rcases List.mem_cons.mp hm with he | hm2
        · cases he
        · cases hm2
      · simp only [hfn, if_false] at hm
        cases hr : resolveItems s (pyOrStr (n.attr "list") "") with
        | error e =>
          rw [hr] at hm
          rcases List.mem_cons.mp hm with he | hm2
          · cases he
          · cases hm2
        | ok items0 =>
          rw [hr] at hm
          cases hl : fx.lookup (pyOrStr (n.attr "do") "") with
          | none =>
            rw [hl] at hm
            rcases List.mem_cons.mp hm with he | hm2
            · cases he
            · cases hm2
          | some f =>
            rw [hl] at hm
            rcases List.mem_cons.mp hm with he | hm2
            · cases he
            · obtain ⟨x, st2, -, he2⟩ := chainOut_trace_mem _ _ _ _ hm2
              simp only [foreachIter] at he2
              rcases List.mem_cons.mp he2 with he3 | hm3
              · cases he3; exact Nat.le_refl _
              · obtain ⟨x4, st4, -, he4⟩ := chainOut_trace_mem _ _ _ _ hm3
                exact Nat.le_succ_of_le (ih x4 st4 d i a b c he4)
    by_cases h4 : lowerStr n.tag = "call"
    · rw [execNode_call_eq ev fx fuel n s h4] at hm
      cases hn : n.attr "name" with
      | none => rw [hn] at hm; simp at hm
      | some nm =>
        rw [hn] at hm
        by_cases hnm : nm = ""
        · simp [hnm] at hm
        · simp only [hnm, if_false] at hm
          cases hl : fx.lookup nm with
          | none => rw [hl] at hm; simp at hm
          | some f =>
            rw [hl] at hm
            simp only at hm
            rcases List.mem_cons.mp hm with he | hm2
            · cases he
            · obtain ⟨x, st2, -, he2⟩ := chainOut_trace_mem _ _ _ _ hm2
              exact Nat.le_succ_of_le (ih x st2 d i a b c he2)
    · rw [execNode_trace_simple ev fx fuel n s h1 h2 h3 h4] at hm
      rcases List.mem_cons.mp hm with he | hm2
      · cases he
      · cases hm2

/-- The three loop bindings of one `handle_foreach` iteration, as read
back right after being written (the element variable must not be named
`index`, or the subsequent `index` write would overwrite it). -/
theorem foreachIter_bindings (st : Store) (varName : String) (it : String) (i0 : Nat)
    (hvar : varName ≠ "index") :
    lookupVar
        (setVar (setVar (setVar st varName (.str it)) "index" (.int (Int.ofNat i0)))
          "arg0" (.str it)) varName = some (.str it) ∧
    lookupVar
        (setVar (setVar (setVar st varName (.str it)) "index" (.int (Int.ofNat i0)))
          "arg0" (.str it)) "index" = some (.int (Int.ofNat i0)) ∧
    lookupVar
        (setVar (setVar (setVar st varName (.str it)) "index" (.int (Int.ofNat i0)))
          "arg0" (.str it)) "arg0" = some (.str it) := by
  refine ⟨?_, ?_, ?_⟩
  · by_cases ha : varName = "arg0"
    · rw [ha, lookupVar_setVar_self]
    · rw [lookupVar_setVar_ne _ _ ha, lookupVar_setVar_ne _ _ hvar, lookupVar_setVar_self]
  · rw [lookupVar_setVar_ne _ _ (by decide), lookupVar_setVar_self]
  · rw [lookupVar_setVar_self]

/-- The iteration events of the `handle_foreach` loop over enumerated
items, when the loop completes without an exception: one event per item,
in order, recording exactly the element, its index, and the element
again as `arg0`.  Body events are excluded by the depth marker. -/
theorem foreachLoop_iterEvents (runBody : Store → Outcome) (varName : String)
    (depth : Nat) (hvar : varName ≠ "index")
    (hbody : ∀ st e, e ∈ (runBody st).trace → iterEvOf depth e = none) :
    ∀ (items : List String) (i0 : Nat) (st : Store),
      (chainOut (foreachIter runBody varName depth) (items.enumFrom i0) st).err = none →
      iterEventsAt depth
          (chainOut (foreachIter runBody varName depth) (items.enumFrom i0) st).trace =
        (items.enumFrom i0).map
          (fun p => (p.1, some (Value.str p.2), some (Value.int (Int.ofNat p.1)),
            some (Value.str p.2))) := by
  intro items
  induction items with
  | nil => intro i0 st hok; simp [List.enumFrom, chainOut_nil, iterEventsAt]
  | cons it rest ih =>
    intro i0 st hok
    rw [List.enumFrom_cons] at hok ⊢
    cases herr : (foreachIter runBody varName depth (i0, it) st).err with
    | some e => rw [chainOut_cons_err _ herr] at hok; rw [herr] at hok; cases hok
    | none =>
      rw [chainOut_cons_ok _ herr] at hok ⊢
      simp only at hok ⊢
      rw [iterEventsAt, List.filterMap_append]
      have hhead :
          (foreachIter runBody varName depth (i0, it) st).trace.filterMap (iterEvOf depth) =
            [(i0, some (Value.str it), some (Value.int (Int.ofNat i0)),
              some (Value.str it))] := by
        simp only [foreachIter]
        rw [List.filterMap_cons]
        obtain ⟨hv1, hv2, hv3⟩ := foreachIter_bindings st varName it i0 hvar
        rw [hv1, hv2, hv3]
        simp only [iterEvOf, if_pos rfl]
        have hrest : ∀ tr : List Ev, (∀ e ∈ tr, iterEvOf depth e = none) →
            tr.filterMap (iterEvOf depth) = [] := by
          intro tr htr
          induction tr with
          | nil => rfl
          | cons e tr2 ih2 =>
            rw [List.filterMap_cons, htr e (List.mem_cons_self e tr2)]
            exact ih2 (fun e2 hm => htr e2 (List.mem_cons_of_mem _ hm))
        rw [hrest _ (fun e hm => hbody _ e hm)]
        simp
      rw [hhead]
      have ih2 := ih (i0 + 1) (foreachIter runBody varName depth (i0, it) st).store hok
      rw [iterEventsAt] at ih2
      rw [ih2, List.map_cons]
      rfl

/-- C5: a `foreach` over a list resolving to `items` with a registered
function, no shuffle, and an element variable not named `index`, that
completes without an exception, invokes the function body exactly once
per element; before the `i`-th invocation the Variable Store binds the
element variable to `items[i]`, `index` to `i`, and `arg0` to
`items[i]` (the recorded iteration events are exactly that sequence). -/
theorem foreach_semantics (ev : EvalOracle) (fx : List (String × Node)) (fuel : Nat)
    (n : Node) (s : Store) (items : List String) (f : Node)
    (h : lowerStr n.tag = "foreach")
    (hne : pyOrStr (n.attr "do") "" ≠ "")
    (hdo : fx.lookup (pyOrStr (n.attr "do") "") = some f)
    (hres : resolveItems s (pyOrStr (n.attr "list") "") = .ok items)
    (hshuf : ¬((n.attr "random_shuffle").getD "0" = "1" ∨
        (n.attr "random_shuffle").getD "0" = "true" ∨
        (n.attr "random_shuffle").getD "0" = "yes"))
    (hvar : pyOrStr (n.attr "var") "item" ≠ "index")
    (hok : (execNode ev fx (fuel + 1) n s).err = none) :
    iterEventsAt (fuel + 1) (execNode ev fx (fuel + 1) n s).trace =
      items.enum.map
        (fun p => (p.1, some (Value.str p.2), some (Value.int (Int.ofNat p.1)),
          some (Value.str p.2))) := by
  rw [execNode_foreach_eq ev fx fuel n s h] at hok ⊢
  simp only [hne, if_false, hres, hdo, hshuf] at hok ⊢
  have hbody : ∀ st e, e ∈ (execList ev fx fuel f.children st).trace →
      iterEvOf (fuel + 1) e = none := by
    intro st e he
    obtain ⟨x, st2, -, he2⟩ := chainOut_trace_mem _ _ _ _ he
    cases e with
    | dispatch t => rfl
    | iterEnter d i a b c =>
      have hd : d ≤ fuel := iterEnter_depth_le ev fx fuel x st2 d i a b c he2
      simp only [iterEvOf]
      rw [if_neg (by omega)]
  have hloop := foreachLoop_iterEvents (fun st1 => execList ev fx fuel f.children st1)
    (pyOrStr (n.attr "var") "item") (fuel + 1) hvar (fun st e he => hbody st e he)
    items 0 s
  rw [iterEventsAt, List.filterMap_cons]
  have hdisp : iterEvOf (fuel + 1) (.dispatch "foreach") = none := rfl
  rw [hdisp, ← iterEventsAt]
  exact hloop hok

/-- C5 (witness): a `foreach` over a three-element list invokes the
registered function body exactly three times, with `x`, `index`, and
`arg0` bound to the expected values before each invocation. -/
theorem foreach_semantics_witness :
    iterEventsAt 2
        (execNode litOracle [("f", .mk "func" [("name", "f")] [.mk "wait" [] []])] 2
          (.mk "foreach" [("list", "L"), ("var", "x"), ("do", "f")] [])
          [("L", .list ["a", "b", "c"])]).trace =
      [(0, some (.str "a"), some (.int 0), some (.str "a")),
       (1, some (.str "b"), some (.int 1), some (.str "b")),
       (2, some (.str "c"), some (.int 2), some (.str "c"))] := by
  refine (foreach_semantics litOracle [("f", .mk "func" [("name", "f")] [.mk "wait" [] []])]
      1 (.mk "foreach" [("list", "L"), ("var", "x"), ("do", "f")] [])
      [("L", .list ["a", "b", "c"])] ["a", "b", "c"]
      (.mk "func" [("name", "f")] [.mk "wait" [] []])
      (by decide) (by decide) rfl rfl (by decide) (by decide) (by decide)).trans ?_
  decide

/-- C10 (counterexample): after a `foreach` over two elements whose body
(indirectly, via `call`) rebinds `arg0`, the final store holds the
body's value, not the last processed element — the claim that `arg0`
always ends holding the last element is false. -/
theorem foreach_arg0_overwritten_by_body :
    (execNode litOracle
        [("f", .mk "func" [("name", "f")] [.mk "call" [("name", "g"), ("arg0", "zzz")] []]),
         ("g", .mk "func" [("name", "g")] [])] 3
        (.mk "foreach" [("list", "L"), ("var", "x"), ("do", "f")] [])
        [("L", .list ["a", "b"])]).err = none ∧
    lookupVar
        (execNode litOracle
          [("f", .mk "func" [("name", "f")] [.mk "call" [("name", "g"), ("arg0", "zzz")] []]),
           ("g", .mk "func" [("name", "g")] [])] 3
          (.mk "foreach" [("list", "L"), ("var", "x"), ("do", "f")] [])
          [("L", .list ["a", "b"])]).store "arg0" = some (.str "zzz") ∧
    Value.str "zzz" ≠ Value.str "b" := by
  with_unfolding_all decide

/-- After a non-empty error-free `handle_foreach` loop whose body leaves
the three binding names untouched, the final store still holds the last
iteration's bindings. -/
theorem foreachLoop_final_bindings (runBody : Store → Outcome) (varName : String)
    (depth : Nat) (hvar : varName ≠ "index")
    (hframe : ∀ (st : Store) (k : String), (k = varName ∨ k = "index" ∨ k = "arg0") →
      lookupVar (runBody st).store k = lookupVar st k) :
    ∀ (items : List String) (i0 : Nat) (st : Store) (last : String),
      items.getLast? = some last →
      (chainOut (foreachIter runBody varName depth) (items.enumFrom i0) st).err = none →
      lookupVar (chainOut (foreachIter runBody varName depth) (items.enumFrom i0) st).store
          varName = some (.str last) ∧
      lookupVar (chainOut (foreachIter runBody varName depth) (items.enumFrom i0) st).store
          "index" = some (.int (Int.ofNat (i0 + items.length - 1))) ∧
      lookupVar (chainOut (foreachIter runBody varName depth) (items.enumFrom i0) st).store
          "arg0" = some (.str last) := by
  intro items
  induction items with
  | nil => intro i0 st last hlast hok; cases hlast
  | cons it rest ih =>
    intro i0 st last hlast hok
    rw [List.enumFrom_cons] at hok ⊢
    cases herr : (foreachIter runBody varName depth (i0, it) st).err with
    | some e => rw [chainOut_cons_err _ herr] at hok; rw [herr] at hok; cases hok
    | none =>
      rw [chainOut_cons_ok _ herr] at hok ⊢
      simp only at hok ⊢
      cases rest with
      | nil =>
        have hl : it = last := by
          simpa [List.getLast?] using hlast
        subst hl
        rw [List.enumFrom_nil, chainOut_nil] at hok ⊢
        simp only
        obtain ⟨hv1, hv2, hv3⟩ := foreachIter_bindings st varName it i0 hvar
        simp only [foreachIter]
        refine ⟨?_, ?_, ?_⟩
        · rw [hframe _ _ (Or.inl rfl), hv1]
        · rw [hframe _ _ (Or.inr (Or.inl rfl)), hv2]
          simp
        · rw [hframe _ _ (Or.inr (Or.inr rfl)), hv3]
      | cons r rs =>
        have hlast2 : (r :: rs).getLast? = some last := by
          rwa [List.getLast?_cons_cons] at hlast
        have := ih (i0 + 1) (foreachIter runBody varName depth (i0, it) st).store last
          hlast2 hok
        refine ⟨this.1, ?_, this.2.2⟩
        rw [this.2.1]
        have heq : i0 + 1 + (r :: rs).length - 1 = i0 + (it :: r :: rs).length - 1 := by
          simp only [List.length_cons]
          omega
        rw [heq]

/-- C10 (amended): a completed `foreach` performs no cleanup — the loop
bindings stay in the shared Variable Store; provided the function body
itself leaves the element variable, `index`, and `arg0` untouched, they
hold the last processed element, `n - 1`, and the last element. -/
theorem foreach_bindings_persist (ev : EvalOracle) (fx : List (String × Node)) (fuel : Nat)
    (n : Node) (s : Store) (items : List String) (f : Node) (last : String)
    (h : lowerStr n.tag = "foreach")
    (hne : pyOrStr (n.attr "do") "" ≠ "")
    (hdo : fx.lookup (pyOrStr (n.attr "do") "") = some f)
    (hres : resolveItems s (pyOrStr (n.attr "list") "") = .ok items)
    (hshuf : ¬((n.attr "random_shuffle").getD "0" = "1" ∨
        (n.attr "random_shuffle").getD "0" = "true" ∨
        (n.attr "random_shuffle").getD "0" = "yes"))
    (hvar : pyOrStr (n.attr "var") "item" ≠ "index")
    (hlast : items.getLast? = some last)
    (hframe : ∀ (st : Store) (k : String),
      (k = pyOrStr (n.attr "var") "item" ∨ k = "index" ∨ k = "arg0") →
      lookupVar (execList ev fx fuel f.children st).store k = lookupVar st k)
    (hok : (execNode ev fx (fuel + 1) n s).err = none) :
    lookupVar (execNode ev fx (fuel + 1) n s).store (pyOrStr (n.attr "var") "item") =
        some (.str last) ∧
    lookupVar (execNode ev fx (fuel + 1) n s).store "index" =
        some (.int (Int.ofNat (items.length - 1))) ∧
    lookupVar (execNode ev fx (fuel + 1) n s).store "arg0" = some (.str last) := by
  rw [execNode_foreach_eq ev fx fuel n s h] at hok ⊢
  simp only [hne, if_false, hres, hdo, hshuf] at hok ⊢
  have := foreachLoop_final_bindings (fun st1 => execList ev fx fuel f.children st1)
    (pyOrStr (n.attr "var") "item") (fuel + 1) hvar hframe items 0 s last hlast hok
  simpa using this

/-- C10 (witness): with an empty function body, a `foreach` over
`["a", "b"]` leaves `x = "b"`, `index = 1`, `arg0 = "b"` in the store
after completion. -/
theorem foreach_bindings_persist_witness :
    lookupVar
        (execNode litOracle [("f", .mk "func" [("name", "f")] [])] 2
          (.mk "foreach" [("list", "L"), ("var", "x"), ("do", "f")] [])
          [("L", .list ["a", "b"])]).store "x" = some (.str "b") ∧
    lookupVar
        (execNode litOracle [("f", .mk "func" [("name", "f")] [])] 2
          (.mk "foreach" [("list", "L"), ("var", "x"), ("do", "f")] [])
          [("L", .list ["a", "b"])]).store "index" = some (.int 1) ∧
    lookupVar
        (execNode litOracle [("f", .mk "func" [("name", "f")] [])] 2
          (.mk "foreach" [("list", "L"), ("var", "x"), ("do", "f")] [])
          [("L", .list ["a", "b"])]).store "arg0" = some (.str "b") :=
  foreach_bindings_persist litOracle [("f", .mk "func" [("name", "f")] [])] 1
    (.mk "foreach" [("list", "L"), ("var", "x"), ("do", "f")] [])
    [("L", .list ["a", "b"])] ["a", "b"] (.mk "func" [("name", "f")] []) "b"
    (by decide) (by decide) rfl rfl (by decide) (by decide) rfl
    (fun st k hk => rfl) (by decide)

/-! ### Substitution lemmas -/

/-- A string matching `_VAR_PATTERN`'s identifier part
(`[A-Za-z_][A-Za-z0-9_]*`). -/
def validIdent (s : String) : Bool :=
  match s.data with
  | [] => false
  | c :: cs => isIdentStart c && cs.all isIdentChar

theorem takeWhile_all_append (p : Char → Bool) (cs r : List Char)
    (hall : ∀ c ∈ cs, p c = true) (hr : ∀ c, r.head? = some c → p c = false) :
    (cs ++ r).takeWhile p = cs ∧ (cs ++ r).dropWhile p = r := by
  induction cs with
  | nil =>
    cases r with
    | nil => exact ⟨rfl, rfl⟩
    | cons c r2 =>
      have := hr c rfl
      simp [List.takeWhile_cons, List.dropWhile_cons, this]
  | cons c cs2 ih =>
    have hc := hall c (List.mem_cons_self c cs2)
    have ⟨h1, h2⟩ := ih (fun c2 hm => hall c2 (List.mem_cons_of_mem _ hm))
    simp [List.takeWhile_cons, List.dropWhile_cons, hc, h1, h2]

theorem scanIdent_exact (X : String) (r : List Char) (hX : validIdent X = true)
    (hr : ∀ c, r.head? = some c → isIdentChar c = false) :
    scanIdent (X.data ++ r) = some (X.data, r) := by
  unfold validIdent at hX
  cases hd : X.data with
  | nil => rw [hd] at hX; cases hX
  | cons c cs =>
    rw [hd] at hX
    have hstart : isIdentStart c = true := by
      simpa using (Bool.and_eq_true .. ▸ hX).1
    have hall : ∀ c2 ∈ cs, isIdentChar c2 = true := by
      have := (Bool.and_eq_true .. ▸ hX).2
      simpa [List.all_eq_true] using this
    have ⟨h1, h2⟩ := takeWhile_all_append isIdentChar cs r hall hr
    simp [scanIdent, hstart, h1, h2]

theorem matchPlaceholder_nofilter (X : String) (post : List Char)
    (hX : validIdent X = true) :
    matchPlaceholder (X.data ++ '}' :: post) = some (X, none, post) := by
  have hscan := scanIdent_exact X ('}' :: post) hX
    (fun c hc => by
      cases hc
      decide)
  unfold matchPlaceholder
  rw [hscan]
  simp

theorem matchPlaceholder_filter (X F : String) (post : List Char)
    (hX : validIdent X = true) (hF : validIdent F = true) :
    matchPlaceholder (X.data ++ '|' :: (F.data ++ '}' :: post)) =
      some (X, some F, post) := by
  have hscan := scanIdent_exact X ('|' :: (F.data ++ '}' :: post)) hX
    (fun c hc => by
      cases hc
      decide)
  have hscan2 := scanIdent_exact F ('}' :: post) hF
    (fun c hc => by
      cases hc
      decide)
  unfold matchPlaceholder
  rw [hscan]
  simp only [reduceIte]
  rw [hscan2]
  simp

/-- The scanner's result does not depend on the fuel, provided the fuel
covers the input length (every step consumes at least one character). -/
theorem substCharsAux_fuel (vars : Store) :
    ∀ (f1 f2 : Nat) (l : List Char), l.length ≤ f1 → l.length ≤ f2 →
      substCharsAux vars f1 l = substCharsAux vars f2 l := by
  intro f1
  induction f1 with
  | zero =>
    intro f2 l h1 h2
    have : l = [] := List.length_eq_zero.mp (Nat.le_zero.mp h1)
    subst this
    cases f2 <;> rfl
  | succ f1 ih =>
    intro f2 l h1 h2
    cases l with
    | nil => cases f2 <;> rfl
    | cons c cs =>
      cases f2 with
      | zero => simp at h2
      | succ f2 =>
        simp only [List.length_cons, Nat.succ_le_succ_iff] at h1 h2
        by_cases hc : c = '$'
        · subst hc
          cases cs with
          | nil =>
            simp only [substCharsAux, if_pos rfl]
            rw [ih f2 [] (by simp) (by simp)]
          | cons c2 cs2 =>
            simp only [substCharsAux, if_pos rfl]
            by_cases hc2 : c2 = '{'
            · subst hc2
              simp only [if_pos rfl, if_true, reduceIte]
              cases hm : matchPlaceholder cs2 with
              | none =>
                simp only [if_true, reduceIte]
                rw [ih f2 ('{' :: cs2) h1 h2]
              | some p =>
                obtain ⟨nm, ft, rest⟩ := p
                simp only [if_true, reduceIte]
                have hlen : rest.length < cs2.length := matchPlaceholder_length hm
                rw [ih f2 rest (by simp at h1; omega) (by simp at h2; omega)]
            · simp only [hc2, if_false]
              rw [ih f2 (c2 :: cs2) h1 h2]
        · simp only [substCharsAux, hc, if_false]
          rw [ih f2 cs (by omega) (by omega)]

/-- Dollar-free text is copied verbatim by the scanner. -/
theorem substCharsAux_no_dollar (vars : Store) :
    ∀ (f : Nat) (l : List Char), l.length ≤ f → (∀ c ∈ l, c ≠ '$') →
      substCharsAux vars f l = l := by
  intro f
  induction f with
  | zero =>
    intro l h1 _
    have : l = [] := List.length_eq_zero.mp (Nat.le_zero.mp h1)
    subst this; rfl
  | succ f ih =>
    intro l h1 hd
    cases l with
    | nil => rfl
    | cons c cs =>
      have hc : c ≠ '$' := hd c (List.mem_cons_self c cs)
      simp only [substCharsAux, hc, if_false]
      rw [ih cs (by simp at h1; omega) (fun c2 hm => hd c2 (List.mem_cons_of_mem _ hm))]

/-- Scanning passes over a dollar-free prefix unchanged and continues on
the remainder. -/
theorem substCharsAux_passover (vars : Store) :
    ∀ (pre rest : List Char) (f : Nat), (pre ++ rest).length ≤ f →
      (∀ c ∈ pre, c ≠ '$') →
      substCharsAux vars f (pre ++ rest) =
        pre ++ substCharsAux vars (f - pre.length) rest := by
  intro pre
  induction pre with
  | nil => intro rest f h1 _; simp
  | cons c pre2 ih =>
    intro rest f h1 hd
    have hc : c ≠ '$' := hd c (List.mem_cons_self c pre2)
    cases f with
    | zero => simp at h1
    | succ f =>
      simp only [List.cons_append, substCharsAux, hc, if_false, List.append_eq]
      have harith : f + 1 - (c :: pre2).length = f - pre2.length := by
        simp only [List.length_cons]
        omega
      rw [harith, ih rest f (by simp at h1 ⊢; omega)
        (fun c2 hm => hd c2 (List.mem_cons_of_mem _ hm))]

/-- Consuming a complete placeholder: the replacement is emitted and
scanning resumes after the closing brace. -/
theorem substCharsAux_placeholder (vars : Store) (f : Nat) (cs2 : List Char)
    (nm : String) (ft : Option String) (rest : List Char)
    (hm : matchPlaceholder cs2 = some (nm, ft, rest)) :
    substCharsAux vars (f + 1) ('$' :: '{' :: cs2) =
      (applyFilter (substLookup vars nm) ft).toList ++ substCharsAux vars f rest := by
  simp only [substCharsAux, if_pos rfl, hm, reduceIte]

/-- An absent filter is the identity (the normalized empty filter name
is not a percent-encoding name). -/
theorem applyFilter_none (v : String) : applyFilter v none = v := by
  simp [applyFilter, urlFilterNames, show stripLower "" = "" from rfl]

/-- The `url` filter applies `quote_plus`. -/
theorem applyFilter_url (v : String) : applyFilter v (some "url") = quotePlus v := by
  simp [applyFilter, urlFilterNames, show stripLower "url" = "url" from by decide]

/-- Unrecognized filter names are the identity. -/
theorem applyFilter_unknown (v : String) (F : String)
    (hF : stripLower F ∉ urlFilterNames) : applyFilter v (some F) = v := by
  simp [applyFilter, hF]

/-- Main scanning shape: dollar-free prefix, then a complete
placeholder, then an arbitrary remainder. -/
theorem substCharsAux_main (vars : Store) (pre cs2 rest : List Char) (nm : String)
    (ft : Option String) (hpre : ∀ c ∈ pre, c ≠ '$')
    (hm : matchPlaceholder cs2 = some (nm, ft, rest)) (f : Nat)
    (hf : (pre ++ '$' :: '{' :: cs2).length ≤ f) :
    substCharsAux vars f (pre ++ '$' :: '{' :: cs2) =
      pre ++ (applyFilter (substLookup vars nm) ft).toList ++
        substCharsAux vars rest.length rest := by
  rw [substCharsAux_passover vars pre _ f hf hpre]
  have hlen : rest.length < cs2.length := matchPlaceholder_length hm
  have hfp : ∃ g, f - pre.length = g + 1 := by
    refine ⟨f - pre.length - 1, ?_⟩
    simp only [List.length_append, List.length_cons] at hf
    omega
  obtain ⟨g, hg⟩ := hfp
  rw [hg, substCharsAux_placeholder vars g cs2 nm ft rest hm]
  rw [substCharsAux_fuel vars g rest.length rest
    (by simp only [List.length_append, List.length_cons] at hf; omega) (Nat.le_refl _)]
  simp [List.append_assoc]

/-- Strings with equal character lists are equal. -/
theorem string_data_eq {a b : String} (h : a.data = b.data) : a = b := by
  cases a; cases b; exact congrArg String.mk h

theorem substVars_data (vars : Store) (s : String) :
    (substVars vars s).data = substCharsAux vars s.data.length s.data := rfl

/-- C9: placeholder substitution leaves dollar-free text unchanged;
`${X}` with `X` unset in the store is replaced by the empty string;
`${X|url}` is replaced by the percent-encoding of the stringified value
of `X`; and any placeholder with an unrecognized filter name is replaced
by the stringified value unchanged (identity filter).  In each case the
surrounding non-placeholder text passes through untouched and scanning
continues on the remainder of the string. -/
theorem substitution_semantics (vars : Store) :
    (∀ t : String, (∀ c ∈ t.data, c ≠ '$') → substVars vars t = t) ∧
    (∀ pre X post : String, (∀ c ∈ pre.data, c ≠ '$') → validIdent X = true →
      lookupVar vars X = none →
      substVars vars (pre ++ "$\x7b" ++ X ++ "\x7d" ++ post) =
        pre ++ "" ++ substVars vars post) ∧
    (∀ (pre X post : String) (v : Value), (∀ c ∈ pre.data, c ≠ '$') →
      validIdent X = true → lookupVar vars X = some v →
      substVars vars (pre ++ "$\x7b" ++ X ++ "|url\x7d" ++ post) =
        pre ++ quotePlus (pyStr v) ++ substVars vars post) ∧
    (∀ pre X F post : String, (∀ c ∈ pre.data, c ≠ '$') → validIdent X = true →
      validIdent F = true → stripLower F ∉ urlFilterNames →
      substVars vars (pre ++ "$\x7b" ++ X ++ "|" ++ F ++ "\x7d" ++ post) =
        pre ++ substLookup vars X ++ substVars vars post) := by
  refine ⟨?_, ?_, ?_, ?_⟩
  · intro t ht
    apply string_data_eq
    rw [substVars_data]
    exact substCharsAux_no_dollar vars t.data.length t.data (Nat.le_refl _) ht
  · intro pre X post hpre hX hnone
    apply string_data_eq
    have hdata : (pre ++ "$\x7b" ++ X ++ "\x7d" ++ post).data =
        pre.data ++ '$' :: '{' :: (X.data ++ '}' :: post.data) := by
      simp [String.data_append, List.append_assoc]
    rw [substVars_data, hdata,
      substCharsAux_main vars pre.data (X.data ++ '}' :: post.data) post.data X none hpre
        (matchPlaceholder_nofilter X post.data hX) _ (Nat.le_refl _)]
    rw [applyFilter_none]
    have hlk : substLookup vars X = "" := by
      rw [substLookup, hnone]
    rw [hlk]
    simp [String.data_append, substVars_data]
  · intro pre X post v hpre hX hsome
    apply string_data_eq
    have hdata : (pre ++ "$\x7b" ++ X ++ "|url\x7d" ++ post).data =
        pre.data ++ '$' :: '{' :: (X.data ++ '|' :: ("url".data ++ '}' :: post.data)) := by
      simp [String.data_append, List.append_assoc]
    rw [substVars_data, hdata,
      substCharsAux_main vars pre.data (X.data ++ '|' :: ("url".data ++ '}' :: post.data))
        post.data X (some "url") hpre
        (matchPlaceholder_filter X "url" post.data hX (by decide)) _ (Nat.le_refl _)]
    rw [applyFilter_url]
    have hlk : substLookup vars X = pyStr v := by
      rw [substLookup, hsome]
    rw [hlk]
    simp [String.data_append, substVars_data]
  · intro pre X F post hpre hX hF hun
    apply string_data_eq
    have hdata : (pre ++ "$\x7b" ++ X ++ "|" ++ F ++ "\x7d" ++ post).data =
        pre.data ++ '$' :: '{' :: (X.data ++ '|' :: (F.data ++ '}' :: post.data)) := by
      simp [String.data_append, List.append_assoc]
    rw [substVars_data, hdata,
      substCharsAux_main vars pre.data (X.data ++ '|' :: (F.data ++ '}' :: post.data))
        post.data X (some F) hpre
        (matchPlaceholder_filter X F post.data hX hF) _ (Nat.le_refl _)]
    rw [applyFilter_unknown _ F hun]
    simp [String.data_append, substVars_data]

/-- C9 (witness): concrete instances — unset variable to empty string,
`url` filter percent-encoding a value with a space, and an unrecognized
filter acting as the identity, with surrounding text untouched. -/
theorem substitution_semantics_witness :
    substVars [("X", .str "a b")] "q-$\x7bY\x7d!" = "q-!" ∧
    substVars [("X", .str "a b")] "q-$\x7bX|url\x7d!" = "q-a+b!" ∧
    substVars [("X", .str "a b")] "q-$\x7bX|weird\x7d!" = "q-a b!" := by
  refine ⟨?_, ?_, ?_⟩
  · have h := (substitution_semantics [("X", .str "a b")]).2.1 "q-" "Y" "!"
      (by decide) (by decide) (by decide)
    rw [show ("q-" ++ "$\x7b" ++ "Y" ++ "\x7d" ++ "!" : String) = "q-$\x7bY\x7d!" from by decide] at h
    rw [h]
    with_unfolding_all decide
  · have h := (substitution_semantics [("X", .str "a b")]).2.2.1 "q-" "X" "!" (.str "a b")
      (by decide) (by decide) (by decide)
    rw [show ("q-" ++ "$\x7b" ++ "X" ++ "|url\x7d" ++ "!" : String) = "q-$\x7bX|url\x7d!" from by decide]
      at h
    rw [h]
    with_unfolding_all decide
  · have h := (substitution_semantics [("X", .str "a b")]).2.2.2 "q-" "X" "weird" "!"
      (by decide) (by decide) (by decide) (by decide)
    rw [show ("q-" ++ "$\x7b" ++ "X" ++ "|" ++ "weird" ++ "\x7d" ++ "!" : String) = "q-$\x7bX|weird\x7d!"
        from by decide] at h
    rw [h]
    with_unfolding_all decide

/-! ### Interruptible wait and voice-event polling -/

/-- What one poll of `_sleep_ms_interruptible`'s loop observes: whether
the voice daemon's `SKIP_EVENT` is set, whether the hotkey thread has
set `skip_wait` since the previous poll, and the current value of the
`paused` flag (both written asynchronously; the discrete model delivers
them at poll boundaries). -/
structure Tick where
  skipEvent : Bool
  hotkeySkip : Bool
  paused : Bool
  deriving DecidableEq, Repr

/-- Discrete-time model of `_sleep_ms_interruptible`'s loop.  `endTs`
is the absolute deadline computed once at entry (`time.time() +
total_ms/1000`); time advances only by sleeping (50 ms slices, or the
exact remainder when less is left); each iteration polls one `Tick` and
then, in source order: returns on `SKIP_EVENT` (without touching
`skip_wait`), returns on an observed `skip_wait` after clearing it,
keeps sleeping while paused without touching the deadline, returns once
the deadline has passed, and otherwise sleeps one slice.  After the
observed trace the flags stay clear and the loop sleeps undisturbed to
the deadline.  Returns the wall-clock finish time and the final
`skip_wait` value. -/
def sleepLoop (endTs : Nat) : List Tick → Nat → Bool → Nat × Bool
  | [], now, sw => if sw then (now, false) else (max now endTs, false)
  | t :: ts, now, sw =>
    let sw2 := sw || t.hotkeySkip
    if t.skipEvent then (now, sw2)
    else if sw2 then (now, false)
    else if t.paused then sleepLoop endTs ts (now + 50) sw2
    else if endTs ≤ now then (now, sw2)
    else sleepLoop endTs ts (now + min 50 (endTs - now)) sw2

/-- `_sleep_ms_interruptible` itself: non-positive requests return at
once, otherwise the loop runs against the fixed deadline `t0 + total`. -/
def sleepMsInterruptible (totalMs : Int) (t0 : Nat) (ticks : List Tick) (sw : Bool) :
    Nat × Bool :=
  if totalMs ≤ 0 then (t0, sw) else sleepLoop (t0 + totalMs.toNat) ticks t0 sw

/-- A speech event as `handle_voice_event` consumes it. -/
structure VoiceEvt where
  typ : String
  text : String
  deriving DecidableEq, Repr

/-- One poll of `handle_voice_event`'s loop: an asynchronous
`skip_wait` write and the event (if any) the 200 ms `get_event` poll
returned. -/
structure VTick where
  hotkeySkip : Bool
  evt : Option VoiceEvt
  deriving DecidableEq, Repr

/-- `want in ("any", evt.type)`. -/
def wantMatches (want : String) (e : VoiceEvt) : Bool :=
  want == "any" || want == e.typ

/-- Discrete model of `handle_voice_event`'s `get_event` polling loop:
each iteration passes the pause gate (which does not touch `skip_wait`),
clears-and-breaks on an observed `skip_wait`, polls for an event for
200 ms, breaks with the event's text and type if it matches the wanted
kind (a non-matching event is discarded), and breaks empty once the
deadline is exceeded.  At trace end a still-set flag is consumed by the
next skip check and an unset flag stays unset, so the run ends with the
flag clear either way.  Returns the `(text, type)` pair and the final
`skip_wait` value. -/
def voiceEventLoop (want : String) (deadline : Option Nat) :
    List VTick → Nat → Bool → (String × String) × Bool
  | [], _, _ => (("", ""), false)
  | t :: ts, now, sw =>
    let sw2 := sw || t.hotkeySkip
    if sw2 then (("", ""), false)
    else
      match t.evt with
      | some e =>
        if wantMatches want e then ((e.text, e.typ), sw2)
        else
          match deadline with
          | some d =>
            if d < now + 200 then (("", ""), sw2)
            else voiceEventLoop want deadline ts (now + 200) sw2
          | none => voiceEventLoop want deadline ts (now + 200) sw2
      | none =>
        match deadline with
        | some d =>
          if d < now + 200 then (("", ""), sw2)
          else voiceEventLoop want deadline ts (now + 200) sw2
        | none => voiceEventLoop want deadline ts (now + 200) sw2

/-- C4: the `skip_wait` flag is consumed-and-cleared by the first
operation that observes it set.  In the sleep loop, any step that
reaches the skip check with the flag set (i.e. `SKIP_EVENT` did not
already end the wait) returns immediately with the flag cleared, and a
whole wait with no `SKIP_EVENT` interference always ends with the flag
clear; the voice-event polling loop likewise clears an observed flag in
the same step and always ends with the flag clear. -/
theorem skip_flag_consumed :
    (∀ (endTs : Nat) (t : Tick) (ts : List Tick) (now : Nat) (sw : Bool),
      t.skipEvent = false → (sw || t.hotkeySkip) = true →
      sleepLoop endTs (t :: ts) now sw = (now, false)) ∧
    (∀ (endTs : Nat) (ticks : List Tick) (now : Nat) (sw : Bool),
      (∀ t ∈ ticks, t.skipEvent = false) →
      (sleepLoop endTs ticks now sw).2 = false) ∧
    (∀ (want : String) (dl : Option Nat) (t : VTick) (ts : List VTick) (now : Nat)
      (sw : Bool), (sw || t.hotkeySkip) = true →
      voiceEventLoop want dl (t :: ts) now sw = (("", ""), false)) ∧
    (∀ (want : String) (dl : Option Nat) (ticks : List VTick) (now : Nat) (sw : Bool),
      (voiceEventLoop want dl ticks now sw).2 = false) := by
  refine ⟨?_, ?_, ?_, ?_⟩
  · intro endTs t ts now sw hse hsw
    simp [sleepLoop, hse, hsw]
  · intro endTs ticks
    induction ticks with
    | nil => intro now sw _; cases sw <;> simp [sleepLoop]
    | cons t ts ih =>
      intro now sw hns
      have hse : t.skipEvent = false := (hns t (List.mem_cons_self t ts)).symm ▸
        (hns t (List.mem_cons_self t ts))
      have hrest : ∀ t2 ∈ ts, t2.skipEvent = false :=
        fun t2 hm => hns t2 (List.mem_cons_of_mem _ hm)
      simp only [sleepLoop, hse, Bool.false_eq_true, if_false]
      by_cases hsw : (sw || t.hotkeySkip) = true
      · simp [hsw]
      · have hsw2 : (sw || t.hotkeySkip) = false := Bool.eq_false_iff.mpr hsw
        simp only [hsw2, Bool.false_eq_true, if_false]
        by_cases hp : t.paused = true
        · simp only [hp, if_true]
          exact ih _ _ hrest
        · simp only [Bool.eq_false_iff.mpr hp, Bool.false_eq_true, if_false]
          by_cases hd : endTs ≤ now
          · simp [hd]
          · simp only [hd, if_false]
            exact ih _ _ hrest
  · intro want dl t ts now sw hsw
    simp [voiceEventLoop, hsw]
  · intro want dl ticks
    induction ticks with
    | nil => intro now sw; rfl
    | cons t ts ih =>
      intro now sw
      simp only [voiceEventLoop]
      by_cases hsw : (sw || t.hotkeySkip) = true
      · simp [hsw]
      · have hsw2 : (sw || t.hotkeySkip) = false := Bool.eq_false_iff.mpr hsw
        simp only [hsw2, Bool.false_eq_true, if_false]
        cases t.evt with
        | some e =>
          by_cases hw : wantMatches want e = true
          · simp [hw, hsw2]
          · simp only [hw, Bool.false_eq_true, if_false]
            cases dl with
            | some d =>
              by_cases hdl : d < now + 200
              · simp [hdl, hsw2]
              · simp only [hdl, if_false]
                exact ih _ _
            | none => exact ih _ _
        | none =>
          cases dl with
          | some d =>
            by_cases hdl : d < now + 200
            · simp [hdl, hsw2]
            · simp only [hdl, if_false]
              exact ih _ _
          | none => exact ih _ _

/-- C4 (witness): a hotkey skip arriving at the first poll of a 500 ms
wait ends it at once with the flag cleared; waits and voice polls with
no skip events end with the flag clear. -/
theorem skip_flag_consumed_witness :
    sleepLoop 500 [⟨false, true, false⟩] 0 false = (0, false) ∧
    (sleepLoop 500 [⟨false, false, false⟩] 0 false).2 = false ∧
    voiceEventLoop "any" none [⟨true, none⟩] 0 false = (("", ""), false) ∧
    (voiceEventLoop "any" (some 100) [⟨false, none⟩] 0 false).2 = false := by
  refine ⟨?_, ?_, ?_, ?_⟩
  · exact skip_flag_consumed.1 500 ⟨false, true, false⟩ [] 0 false rfl rfl
  · exact skip_flag_consumed.2.1 500 [⟨false, false, false⟩] 0 false
      (by intro t hm; simp at hm; rw [hm])
  · exact skip_flag_consumed.2.2.1 "any" none ⟨true, none⟩ [] 0 false rfl
  · exact skip_flag_consumed.2.2.2 "any" (some 100) [⟨false, none⟩] 0 false

/-- C1 (counterexample): a 100 ms wait (deadline 100) that is paused at
both of its first two polls — 100 ms of paused wall-clock time — still
returns at absolute time 100: after resume it sleeps for no additional
time at all, although the claim requires the full requested duration of
unpaused sleeping (finish at 200).  The paused duration counted against
the requested duration. -/
theorem sleep_pause_not_excluded :
    sleepLoop 100 [⟨false, false, true⟩, ⟨false, false, true⟩] 0 false = (100, false) ∧
    (sleepLoop 100 [⟨false, false, true⟩, ⟨false, false, true⟩] 0 false).1 ≠ 100 + 100 := by
  decide

/-- With no skip, the wait never returns before the absolute deadline
fixed at entry. -/
theorem sleepLoop_lower (endTs : Nat) :
    ∀ (ticks : List Tick) (now : Nat),
      (∀ t ∈ ticks, t.skipEvent = false ∧ t.hotkeySkip = false) →
      endTs ≤ (sleepLoop endTs ticks now false).1 := by
  intro ticks
  induction ticks with
  | nil =>
    intro now _
    simp [sleepLoop]
  | cons t ts ih =>
    intro now hns
    obtain ⟨hse, hhk⟩ := hns t (List.mem_cons_self t ts)
    have hrest : ∀ t2 ∈ ts, t2.skipEvent = false ∧ t2.hotkeySkip = false :=
      fun t2 hm => hns t2 (List.mem_cons_of_mem _ hm)
    simp only [sleepLoop, hse, hhk, Bool.or_false, Bool.false_eq_true, if_false]
    by_cases hp : t.paused = true
    · simp only [hp, if_true]
      exact ih _ hrest
    · simp only [Bool.eq_false_iff.mpr hp, Bool.false_eq_true, if_false]
      by_cases hd : endTs ≤ now
      · simp [hd]
      · simp only [hd, if_false]
        exact ih _ hrest

/-- With no skip, the wait overshoots `max now endTs` by at most one
50 ms slice per paused poll. -/
theorem sleepLoop_upper (endTs : Nat) :
    ∀ (ticks : List Tick) (now : Nat),
      (∀ t ∈ ticks, t.skipEvent = false ∧ t.hotkeySkip = false) →
      (sleepLoop endTs ticks now false).1 ≤
        max now endTs + 50 * (ticks.filter (fun t => t.paused)).length := by
  intro ticks
  induction ticks with
  | nil =>
    intro now _
    simp [sleepLoop]
  | cons t ts ih =>
    intro now hns
    obtain ⟨hse, hhk⟩ := hns t (List.mem_cons_self t ts)
    have hrest : ∀ t2 ∈ ts, t2.skipEvent = false ∧ t2.hotkeySkip = false :=
      fun t2 hm => hns t2 (List.mem_cons_of_mem _ hm)
    simp only [sleepLoop, hse, hhk, Bool.or_false, Bool.false_eq_true, if_false]
    by_cases hp : t.paused = true
    · simp only [hp, if_true, List.filter_cons, List.length_cons]
      have := ih (now + 50) hrest
      have hmax : max (now + 50) endTs ≤ max now endTs + 50 := by
        rcases Nat.le_total now endTs with h2 | h2 <;> omega
      omega
    · have hpf : t.paused = false := Bool.eq_false_iff.mpr hp
      simp only [hpf, Bool.false_eq_true, if_false, List.filter_cons]
      by_cases hd : endTs ≤ now
      · simp only [hd, if_true]
        omega
      · simp only [hd, if_false]
        have := ih (now + min 50 (endTs - now)) hrest
        have hmax : max (now + min 50 (endTs - now)) endTs = endTs := by
          omega
        have hmax2 : max now endTs = endTs := by omega
        omega

/-- C1 (amended): `_sleep_ms_interruptible` fixes its deadline in
absolute wall-clock time once, at entry, and pausing never moves it:
with no skip, a wait started within its budget finishes no earlier than
the fixed deadline and at most one 50 ms slice per paused poll after it.
Consequently paused duration does count against the requested duration —
after a pause that outlasts the remaining budget, the wait returns
immediately on resume instead of sleeping the remaining requested
time. -/
theorem sleep_deadline_fixed_wallclock (endTs : Nat) (ticks : List Tick) (now : Nat)
    (hns : ∀ t ∈ ticks, t.skipEvent = false ∧ t.hotkeySkip = false)
    (hle : now ≤ endTs) :
    endTs ≤ (sleepLoop endTs ticks now false).1 ∧
    (sleepLoop endTs ticks now false).1 ≤
      endTs + 50 * (ticks.filter (fun t => t.paused)).length := by
  refine ⟨sleepLoop_lower endTs ticks now hns, ?_⟩
  have := sleepLoop_upper endTs ticks now hns
  have hmax : max now endTs = endTs := by omega
  omega

/-- C1 (witness): a 100 ms wait whose first poll is paused finishes at
exactly the fixed deadline 100, within the bound `100 + 50`. -/
theorem sleep_deadline_fixed_wallclock_witness :
    100 ≤ (sleepLoop 100 [⟨false, false, true⟩] 0 false).1 ∧
    (sleepLoop 100 [⟨false, false, true⟩] 0 false).1 ≤
      100 + 50 * ([⟨false, false, true⟩].filter (fun t : Tick => t.paused)).length :=
  sleep_deadline_fixed_wallclock 100 [⟨false, false, true⟩] 0
    (by intro t hm; simp at hm; rw [hm]; exact ⟨rfl, rfl⟩) (by decide)
